import Mathlib

/-!
# ChronoType: the keystroke aggregate of `app.go`

A shallow embedding of the event-to-aggregate pipeline of `app.go`:
the per-day records (`KeystrokeData`), the tracker that owns them
(`KeyTracker`), the writer `recordKeystroke`, the reader `getDailyStats`
and the summary the two query handlers of `main` compute from it.

Modelling conventions.

* `map[string]*KeystrokeData` is an association list of key/record pairs,
  the order of the list being one iteration order of the map.  A pointer is
  identified with the record it points to (the methods store no nil
  pointer); indexing the map with a key that is absent yields the nil
  pointer, and a field access through it fails (`none`).
* Go's `int` and `int64` are 64 bits wide.  A value is an `Int`, and the
  result of an operation that can leave the range is wrapped around by
  `wrapInt64`: the subtraction of `getDailyStats`, the sum of the handlers
  and the increment of `recordKeystroke64`.  `recordKeystroke` takes the
  increment in the integers: the two agree while the count of today's record
  is in the range and below its maximum (`recordKeystroke64_eq_recordKeystroke`).
* A `time.Time` is represented by its Unix second count.  The calendar date
  `now.Format("2006-01-02")` depends on the instant only through that count
  and the host's time zone; it is the parameter `day` of the functions below.
* A `float64` value is the rational number it is.  The conversion
  `float64(n)` and the division round to the nearest number of 53
  significant bits, ties to even (`float64OfInt`, `divFloat64`).
* Every method body runs under the tracker's lock, so a method call is one
  atomic step on the tracker state.
* The data file is its text, a `String` (so valid UTF-8), or `none` when
  `os.ReadFile` fails.  `encoding/json` is modelled on that text: the
  scanner and decoder of `json.Unmarshal` for the target type
  `map[string]*KeystrokeData`, and the text of `json.MarshalIndent`.  An
  integer literal is decoded to the `Int` it writes, as the decoder does for
  a literal in the range of `int64`.  `os.WriteFile` is taken
  to succeed: `saveData` is the text it writes.
-/

namespace ChronoType

/-- Go struct `KeystrokeData`: the stored record of one calendar day. -/
structure KeystrokeData where
  Date : String
  Count : Int
  StartTime : Int
  EndTime : Int
deriving DecidableEq, Repr

/-- Go struct `DailyStats`: the derived view of one calendar day. -/
structure DailyStats where
  Date : String
  TotalKeystrokes : Int
  AvgPerMinute : ℚ
  ActiveMinutes : Int
deriving DecidableEq, Repr

/-- Go type `map[string]*KeystrokeData`, as the list of its entries. -/
abbrev DailyData := List (String × KeystrokeData)

/-- Map indexing `m[k]`: the record stored under `k`, `none` for the nil
pointer an absent key yields. -/
def DailyData.get : DailyData → String → Option KeystrokeData
  | [], _ => none
  | (k', v) :: rest, k => if k' = k then some v else DailyData.get rest k

/-- Map assignment `m[k] = v`: overwrite the entry of `k`, or add one. -/
def DailyData.set : DailyData → String → KeystrokeData → DailyData
  | [], k, v => [(k, v)]
  | (k', v') :: rest, k, v =>
    if k' = k then (k', v) :: rest else (k', v') :: DailyData.set rest k v

/-- Field update through the pointer `m[k]`, as in `m[k].Count++`: the
record under `k` is replaced by its image under `f`; fails on the nil
pointer of an absent key. -/
def DailyData.update (m : DailyData) (k : String)
    (f : KeystrokeData → KeystrokeData) : Option DailyData :=
  match m.get k with
  | none => none
  | some v => some (m.set k (f v))

/-- Go struct `KeyTracker`, without the lock, the file name and the hook
handle.  `lastKeytime` is `none` for the zero `time.Time`. -/
structure KeyTracker where
  dailyData : DailyData
  lastKeytime : Option Int
deriving DecidableEq, Repr

/-- The struct literal of `NewKeyTracker`: an empty map, zero `lastKeytime`. -/
def KeyTracker.empty : KeyTracker :=
  { dailyData := [], lastKeytime := none }

/-- Method `recordKeystroke`, with the clock reading `now` of `time.Now()` as
an argument and `day now` for `now.Format("2006-01-02")`, the increment
`Count++` taken in the integers.  This is the method while the count of
today's record is in the range of `int` and below its maximum `2 ^ 63 - 1`
(`recordKeystroke64_eq_recordKeystroke`); `recordKeystroke64` is the method
with the increment of Go's `int`. -/
def recordKeystroke (day : Int → String) (kt : KeyTracker) (now : Int) :
    Option KeyTracker :=
  let today := day now
  let m₀ : DailyData :=
    if (kt.dailyData.get today).isNone then
      kt.dailyData.set today
        { Date := today, Count := 0, StartTime := now, EndTime := now }
    else kt.dailyData
  match m₀.update today (fun d => { d with Count := d.Count + 1 }) with
  | none => none
  | some m₁ =>
    match m₁.update today (fun d => { d with EndTime := now }) with
    | none => none
    | some m₂ => some { dailyData := m₂, lastKeytime := some now }

/-- Library function `sort.Slice` on a slice with the comparison `less`,
modelled by insertion sort.  The Go function is not stable; only that the
result is a sorted rearrangement of the input is used below. -/
def sortSlice {α : Type} (less : α → α → Bool) (xs : List α) : List α :=
  List.insertionSort (fun a b => less b a = false) xs

/-- The value to which a result of Go's 64-bit signed arithmetic (`int64`, and
`int` on a 64-bit platform) wraps around. -/
def wrapInt64 (x : Int) : Int :=
  (x + 9223372036854775808) % 18446744073709551616 - 9223372036854775808

/-- Method `recordKeystroke`, with the clock reading `now` of `time.Now()` as
an argument and `day now` for `now.Format("2006-01-02")`; the increment
`Count++` is that of Go's 64-bit `int`, which wraps around. -/
def recordKeystroke64 (day : Int → String) (kt : KeyTracker) (now : Int) :
    Option KeyTracker :=
  let today := day now
  let m₀ : DailyData :=
    if (kt.dailyData.get today).isNone then
      kt.dailyData.set today
        { Date := today, Count := 0, StartTime := now, EndTime := now }
    else kt.dailyData
  match m₀.update today (fun d => { d with Count := wrapInt64 (d.Count + 1) }) with
  | none => none
  | some m₁ =>
    match m₁.update today (fun d => { d with EndTime := now }) with
    | none => none
    | some m₂ => some { dailyData := m₂, lastKeytime := some now }

/-- The number of binary digits of `n`; the first argument bounds it. -/
def bitLength : Nat → Nat → Nat
  | 0, _ => 0
  | fuel + 1, n => if n = 0 then 0 else bitLength fuel (n / 2) + 1

/-- The natural number nearest to `num / den`, the even one when two are
equally near. -/
def roundHalfEven (num den : Nat) : Nat :=
  if 2 * (num % den) < den then num / den
  else if den < 2 * (num % den) then num / den + 1
  else if (num / den) % 2 = 0 then num / den
  else num / den + 1

/-- The binary exponent `e` of `p / q`, with `2 ^ e ≤ p / q < 2 ^ (e + 1)`,
for positive `p` and `q`. -/
def binaryExponent (p q : Nat) : Int :=
  if q * 2 ^ ((bitLength p p : Int) - (bitLength q q : Int)).toNat ≤
      p * 2 ^ ((bitLength q q : Int) - (bitLength p p : Int)).toNat then
    (bitLength p p : Int) - (bitLength q q : Int)
  else (bitLength p p : Int) - (bitLength q q : Int) - 1

/-- The 53-bit significand of the `float64` nearest to `p / q` (round to
nearest, ties to even), for positive `p` and `q`: the value is the
significand times `2 ^ (binaryExponent p q - 52)`. -/
def significand (p q : Nat) : Nat :=
  roundHalfEven (p * 2 ^ (52 - binaryExponent p q).toNat)
    (q * 2 ^ (binaryExponent p q - 52).toNat)

/-- Go conversion `float64(n)` of an integer: `n` itself below `2 ^ 53` in
magnitude, and the nearest integer of 53 significant bits beyond. -/
def float64OfInt (n : Int) : Int :=
  if n.natAbs < 2 ^ 53 then n
  else
    n.sign * ((roundHalfEven n.natAbs (2 ^ (bitLength n.natAbs n.natAbs - 53)) *
      2 ^ (bitLength n.natAbs n.natAbs - 53) : Nat) : Int)

/-- Go division `x / y` of two `float64` values that are integers: the
`float64` nearest to the quotient, a significand of 53 bits with the sign of
the quotient, times a power of two.  The range of the exponent of a `float64`
is not modelled: a quotient of two non-zero `int64` values is far from its
ends.  A zero divisor, which the guard of `getDailyStats` excludes, is given
the value 0. -/
def divFloat64 (x y : Int) : ℚ :=
  if x = 0 ∨ y = 0 then 0
  else
    ((x.sign * y.sign * (significand x.natAbs y.natAbs : Int) : Int) : ℚ) *
      (2 : ℚ) ^ (binaryExponent x.natAbs y.natAbs - 52)

/-- The body of the loop of `getDailyStats`: the view derived from one record. -/
def dailyStat (data : KeystrokeData) : DailyStats :=
  let durationSeconds := wrapInt64 (data.EndTime - data.StartTime)
  let activeMinutes := Int.tdiv durationSeconds 60
  let activeMinutes := if activeMinutes = 0 then 1 else activeMinutes
  let avgPerMinute : ℚ := divFloat64 (float64OfInt data.Count) (float64OfInt activeMinutes)
  { Date := data.Date
    TotalKeystrokes := data.Count
    AvgPerMinute := avgPerMinute
    ActiveMinutes := activeMinutes }

/-- Method `getDailyStats`: one view per map entry, sorted by `Date`. -/
def getDailyStats (kt : KeyTracker) : List DailyStats :=
  sortSlice (fun a b => decide (a.Date.toList < b.Date.toList))
    (kt.dailyData.map (fun e => dailyStat e.2))

/-- A run of `recordKeystroke` calls, one per clock reading, in the order in
which the lock is acquired; fails as soon as one call does. -/
def recordAll (day : Int → String) : KeyTracker → List Int → Option KeyTracker
  | kt, [] => some kt
  | kt, now :: rest =>
    match recordKeystroke day kt now with
    | none => none
    | some kt' => recordAll day kt' rest

/-- One atomic operation on the tracker: a `recordKeystroke` call with its
clock reading, or a `getDailyStats` call. -/
inductive Op where
  | record (now : Int)
  | stats
deriving DecidableEq, Repr

/-- Whether the operation is a `recordKeystroke` call. -/
def Op.isRecord : Op → Bool
  | Op.record _ => true
  | Op.stats => false

/-- A serialised run of operations: the final tracker and the results of the
`getDailyStats` calls, in order; fails as soon as one operation does. -/
def runOps (day : Int → String) :
    KeyTracker → List Op → Option (KeyTracker × List (List DailyStats))
  | kt, [] => some (kt, [])
  | kt, Op.record now :: rest =>
    match recordKeystroke day kt now with
    | none => none
    | some kt' => runOps day kt' rest
  | kt, Op.stats :: rest =>
    match runOps day kt rest with
    | none => none
    | some (kt', outs) => some (kt', getDailyStats kt :: outs)

/-- The local variables `totalToday`, `totalKeys`, `avgToday` of a handler. -/
structure Totals where
  totalToday : Int
  totalKeys : Int
  avgToday : ℚ
deriving DecidableEq, Repr

/-- The loop `for _, stat := range allDailyStats` of both handlers of `main`,
from the zero values of its variables; the sum `totalKeys +=` is in `int` and
wraps around. -/
def totalsLoop (todayDate : String) (allDailyStats : List DailyStats) : Totals :=
  allDailyStats.foldl
    (fun acc stat =>
      let totalKeys := wrapInt64 (acc.totalKeys + stat.TotalKeystrokes)
      if stat.Date = todayDate then
        { totalToday := stat.TotalKeystrokes
          totalKeys := totalKeys
          avgToday := stat.AvgPerMinute }
      else { acc with totalKeys := totalKeys })
    { totalToday := 0, totalKeys := 0, avgToday := 0 }

/-- Go struct `APIResponseData`. -/
structure APIResponseData where
  TotalToday : Int
  AvgToday : ℚ
  TotalDays : Int
  TotalKeys : Int
  Stats : List DailyStats
deriving DecidableEq, Repr

/-- Go struct `PageData`, without the pre-rendered JSON text. -/
structure PageData where
  TotalToday : Int
  AvgToday : ℚ
  TotalDays : Int
  TotalKeys : Int
  InitialStatsForTable : List DailyStats
deriving DecidableEq, Repr

/-- The handler of `/api/all-stats`, with `todayDate` for
`time.Now().Format("2006-01-02")`: the response it encodes. -/
def allStatsHandler (kt : KeyTracker) (todayDate : String) : APIResponseData :=
  let allDailyStats := getDailyStats kt
  let t := totalsLoop todayDate allDailyStats
  { TotalToday := t.totalToday
    AvgToday := t.avgToday
    TotalDays := (allDailyStats.length : Int)
    TotalKeys := t.totalKeys
    Stats := allDailyStats }

/-- The handler of `/`, with `todayDate` for
`time.Now().Format("2006-01-02")`: the data it renders. -/
def indexHandler (kt : KeyTracker) (todayDate : String) : PageData :=
  let allDailyStats := getDailyStats kt
  let t := totalsLoop todayDate allDailyStats
  { TotalToday := t.totalToday
    AvgToday := t.avgToday
    TotalDays := (allDailyStats.length : Int)
    TotalKeys := t.totalKeys
    InitialStatsForTable := allDailyStats }

/-- An instance of `day` for the examples: the UTC calendar date of the
instants of 2024-01-01 and 2024-01-02 (the latter starts at 1704153600). -/
def utcDay (now : Int) : String :=
  if now < 1704153600 then "2024-01-01" else "2024-01-02"

/-! ## Persistence: the JSON text of the data file

The library `encoding/json` is modelled on Unicode text: the scanner and
decoder that `json.Unmarshal` runs on the file content, and the text that
`json.MarshalIndent` writes for a `map[string]*KeystrokeData`.  A file is its
text, `none` when `os.ReadFile` fails (a missing file). -/

/-- A JSON value as the decoder sees it.  A number literal is `number n` when
it is a decimal integer, and `float` when it has a fraction or an exponent. -/
inductive JSON where
  | null
  | bool (b : Bool)
  | number (n : Int)
  | float
  | string (s : String)
  | array (items : List JSON)
  | object (members : List (String × JSON))
deriving Repr

/-- The white space of JSON: space, tab, carriage return, line feed. -/
def isSpace (c : Char) : Bool :=
  c = ' ' || c = '\t' || c = '\r' || c = '\n'

def skipSpace : List Char → List Char
  | [] => []
  | c :: cs => if isSpace c then skipSpace cs else c :: cs

/-- The value of a hexadecimal digit, of either case. -/
def hexVal (c : Char) : Option Nat :=
  if 48 ≤ c.toNat ∧ c.toNat ≤ 57 then some (c.toNat - 48)
  else if 97 ≤ c.toNat ∧ c.toNat ≤ 102 then some (c.toNat - 87)
  else if 65 ≤ c.toNat ∧ c.toNat ≤ 70 then some (c.toNat - 55)
  else none

/-- The code unit written by the four hexadecimal digits of a `\u` escape. -/
def hex4 (a b c d : Char) : Option Nat :=
  match hexVal a, hexVal b, hexVal c, hexVal d with
  | some x, some y, some z, some w => some (((x * 16 + y) * 16 + z) * 16 + w)
  | _, _, _, _ => none

/-- The character of a two-character escape `\e`. -/
def escapeChar (e : Char) : Option Char :=
  if e = '"' then some '"'
  else if e = '\\' then some '\\'
  else if e = '/' then some '/'
  else if e = 'b' then some (Char.ofNat 8)
  else if e = 'f' then some (Char.ofNat 12)
  else if e = 'n' then some '\n'
  else if e = 'r' then some '\r'
  else if e = 't' then some '\t'
  else none

/-- One step of the decoder inside a string literal: the closing quote, a
syntax error, or a character written on `width` characters of text. -/
inductive StringStep where
  | close
  | invalid
  | char (c : Char) (width : Nat)
deriving DecidableEq, Repr

/-- The low surrogate that a `\u` escape at the head of the text names, if
there is one. -/
def lowSurrogate (cs : List Char) : Option Nat :=
  match cs with
  | bs :: u :: a :: b :: c :: d :: _ =>
    if bs = '\\' ∧ u = 'u' then
      match hex4 a b c d with
      | some lo => if 0xDC00 ≤ lo ∧ lo < 0xE000 then some lo else none
      | none => none
    else none
  | _ => none

/-- The step of the decoder at the head of the text of a string literal.
Control characters and unknown escapes are syntax errors; a `\u` escape of a
surrogate pair is one character, and a lone surrogate is U+FFFD. -/
def stringStep (cs : List Char) : StringStep :=
  match cs with
  | [] => StringStep.invalid
  | c :: cs₁ =>
    if c = '"' then StringStep.close
    else if c = '\\' then
      match cs₁ with
      | [] => StringStep.invalid
      | e :: cs₂ =>
        if e = 'u' then
          match cs₂ with
          | a :: b :: c₂ :: d :: cs₃ =>
            match hex4 a b c₂ d with
            | none => StringStep.invalid
            | some code =>
              if 0xD800 ≤ code ∧ code < 0xDC00 then
                match lowSurrogate cs₃ with
                | some lo =>
                  StringStep.char
                    (Char.ofNat (0x10000 + (code - 0xD800) * 0x400 + (lo - 0xDC00))) 12
                | none => StringStep.char (Char.ofNat 0xFFFD) 6
              else if 0xDC00 ≤ code ∧ code < 0xE000 then StringStep.char (Char.ofNat 0xFFFD) 6
              else StringStep.char (Char.ofNat code) 6
          | _ => StringStep.invalid
        else
          match escapeChar e with
          | none => StringStep.invalid
          | some ch => StringStep.char ch 2
    else if c.toNat < 32 then StringStep.invalid
    else StringStep.char c 1

/-- The decoder inside a string literal, after skipping `skip` characters of
an escape already decoded: the characters the literal denotes and the text
after its closing quote. -/
def unquoteFrom : Nat → List Char → Option (List Char × List Char)
  | _, [] => none
  | skip + 1, _ :: cs => unquoteFrom skip cs
  | 0, c :: cs =>
    match stringStep (c :: cs) with
    | StringStep.close => some ([], cs)
    | StringStep.invalid => none
    | StringStep.char ch width =>
      (unquoteFrom (width - 1) cs).map (fun p => (ch :: p.1, p.2))

/-- A string literal after its opening quote: the characters it denotes and
the text after its closing quote. -/
def unquote (cs : List Char) : Option (List Char × List Char) :=
  unquoteFrom 0 cs

def isDigit (c : Char) : Bool :=
  decide (48 ≤ c.toNat ∧ c.toNat ≤ 57)

/-- The number written by a sequence of decimal digits. -/
def digitsValue (ds : List Char) : Nat :=
  ds.foldl (fun acc d => 10 * acc + (d.toNat - 48)) 0

/-- The fraction part of a number literal, if any: whether there is one, and
the text after it. -/
def scanFraction (cs : List Char) : Option (Bool × List Char) :=
  match cs with
  | [] => some (false, [])
  | p :: cs₁ =>
    if p = '.' then
      if (cs₁.span isDigit).1 = [] then none else some (true, (cs₁.span isDigit).2)
    else some (false, cs)

/-- The exponent part of a number literal, if any: whether there is one, and
the text after it. -/
def scanExponent (cs : List Char) : Option (Bool × List Char) :=
  match cs with
  | [] => some (false, [])
  | e :: cs₁ =>
    if e = 'e' ∨ e = 'E' then
      let cs₂ :=
        match cs₁ with
        | [] => cs₁
        | s :: cs₃ => if s = '+' ∨ s = '-' then cs₃ else cs₁
      if (cs₂.span isDigit).1 = [] then none else some (true, (cs₂.span isDigit).2)
    else some (false, cs)

/-- A number literal: an optional minus sign, digits without a superfluous
leading zero, an optional fraction and an optional exponent. -/
def scanNumber (cs : List Char) : Option (JSON × List Char) :=
  let neg : Bool := decide (cs.head? = some '-')
  let cs₁ := if neg then cs.tail else cs
  let ds := (cs₁.span isDigit).1
  if ds = [] then none
  else if ds.head? = some '0' ∧ 1 < ds.length then none
  else
    match scanFraction (cs₁.span isDigit).2 with
    | none => none
    | some (frac, cs₂) =>
      match scanExponent cs₂ with
      | none => none
      | some (exp, cs₃) =>
        if frac ∨ exp then some (JSON.float, cs₃)
        else some (JSON.number (if neg then -(digitsValue ds : Int) else digitsValue ds), cs₃)

/-- The scanner's limit on the nesting of arrays and objects. -/
def maxNestingDepth : Nat := 10000

mutual
/-- One JSON value at the head of the text, inside `depth` arrays and
objects: the value and the text after it.  The first argument bounds the
number of nested calls; `parseJSON` passes one more than the length of the
text, and every nested call comes after at least one character of it. -/
def parseValue : Nat → Nat → List Char → Option (JSON × List Char)
  | 0, _, _ => none
  | _ + 1, _, [] => none
  | fuel + 1, depth, c :: cs =>
    if c = '{' then
      if maxNestingDepth ≤ depth then none
      else
        match skipSpace cs with
        | [] => none
        | c₁ :: cs₁ =>
          if c₁ = '}' then some (JSON.object [], cs₁)
          else
            match parseMembers fuel (depth + 1) (c₁ :: cs₁) with
            | none => none
            | some (ms, rest) => some (JSON.object ms, rest)
    else if c = '[' then
      if maxNestingDepth ≤ depth then none
      else
        match skipSpace cs with
        | [] => none
        | c₁ :: cs₁ =>
          if c₁ = ']' then some (JSON.array [], cs₁)
          else
            match parseElements fuel (depth + 1) (c₁ :: cs₁) with
            | none => none
            | some (vs, rest) => some (JSON.array vs, rest)
    else if c = '"' then
      match unquote cs with
      | none => none
      | some (s, rest) => some (JSON.string (String.mk s), rest)
    else if c = 't' then
      if cs.take 3 = ['r', 'u', 'e'] then some (JSON.bool true, cs.drop 3) else none
    else if c = 'f' then
      if cs.take 4 = ['a', 'l', 's', 'e'] then some (JSON.bool false, cs.drop 4) else none
    else if c = 'n' then
      if cs.take 3 = ['u', 'l', 'l'] then some (JSON.null, cs.drop 3) else none
    else scanNumber (c :: cs)
/-- The members of an object, from the first key to the closing brace. -/
def parseMembers : Nat → Nat → List Char → Option (List (String × JSON) × List Char)
  | 0, _, _ => none
  | _ + 1, _, [] => none
  | fuel + 1, depth, c :: cs =>
    if c = '"' then
      match unquote cs with
      | none => none
      | some (key, rest) =>
        match skipSpace rest with
        | [] => none
        | c₁ :: cs₁ =>
          if c₁ = ':' then
            match parseValue fuel depth (skipSpace cs₁) with
            | none => none
            | some (v, rest₁) =>
              match skipSpace rest₁ with
              | [] => none
              | c₂ :: cs₂ =>
                if c₂ = ',' then
                  match parseMembers fuel depth (skipSpace cs₂) with
                  | none => none
                  | some (ms, rest₂) => some ((String.mk key, v) :: ms, rest₂)
                else if c₂ = '}' then some ([(String.mk key, v)], cs₂)
                else none
          else none
    else none
/-- The elements of an array, from the first value to the closing bracket. -/
def parseElements : Nat → Nat → List Char → Option (List JSON × List Char)
  | 0, _, _ => none
  | fuel + 1, depth, cs =>
    match parseValue fuel depth cs with
    | none => none
    | some (v, rest) =>
      match skipSpace rest with
      | [] => none
      | c₁ :: cs₁ =>
        if c₁ = ',' then
          match parseElements fuel depth (skipSpace cs₁) with
          | none => none
          | some (vs, rest₁) => some (v :: vs, rest₁)
        else if c₁ = ']' then some ([v], cs₁)
        else none
end

/-- The JSON value a text denotes: one value between optional white space;
`none` for a text that is not syntactically valid JSON, the case in which
`json.Unmarshal` returns a syntax error before it decodes anything. -/
def parseJSON (text : List Char) : Option JSON :=
  match parseValue (text.length + 1) 0 (skipSpace text) with
  | none => none
  | some (v, rest) => if skipSpace rest = [] then some v else none

/-- Library function `json.Valid`: whether a text is syntactically valid
JSON, the check `json.Unmarshal` makes before it decodes anything. -/
def Valid (data : String) : Bool :=
  (parseJSON data.toList).isSome

/-- The lower-case hexadecimal digit of a number below 16. -/
def hexDigit (n : Nat) : Char :=
  if n < 10 then Char.ofNat (48 + n) else Char.ofNat (87 + n)

/-- The text the encoder writes for one character of a string: escapes for
the quote, the backslash, the control characters, the characters `<`, `>`,
`&` and the separators U+2028 and U+2029. -/
def quoteChar (c : Char) : List Char :=
  if c = '"' ∨ c = '\\' then ['\\', c]
  else if c.toNat = 8 then ['\\', 'b']
  else if c.toNat = 12 then ['\\', 'f']
  else if c = '\n' then ['\\', 'n']
  else if c = '\r' then ['\\', 'r']
  else if c = '\t' then ['\\', 't']
  else if c.toNat < 32 ∨ c = '<' ∨ c = '>' ∨ c = '&' then
    ['\\', 'u', '0', '0', hexDigit (c.toNat / 16), hexDigit (c.toNat % 16)]
  else if c.toNat = 0x2028 ∨ c.toNat = 0x2029 then
    ['\\', 'u', '2', '0', '2', hexDigit (c.toNat % 16)]
  else [c]

/-- The string literal the encoder writes for a string. -/
def quote (s : List Char) : List Char :=
  '"' :: (s.flatMap quoteChar ++ ['"'])

/-- The decimal digits of a number, most significant first (`strconv`); the
first argument bounds the number of digits. -/
def decimalDigits : Nat → Nat → List Char
  | 0, _ => []
  | fuel + 1, n =>
    if n < 10 then [Char.ofNat (48 + n)]
    else decimalDigits fuel (n / 10) ++ [Char.ofNat (48 + n % 10)]

/-- The text the encoder writes for an integer. -/
def formatInt (n : Int) : List Char :=
  if n < 0 then '-' :: decimalDigits (n.natAbs + 1) n.natAbs
  else decimalDigits (n.toNat + 1) n.toNat

/-- The line break of `MarshalIndent` with indent `"  "` at nesting `depth`. -/
def newline (depth : Nat) : List Char :=
  '\n' :: List.replicate (2 * depth) ' '

/-- One member of an indented object: the key, a colon, a space, the value. -/
def renderMember (depth : Nat) (key : String) (value : List Char) : List Char :=
  newline depth ++ quote key.toList ++ ':' :: ' ' :: value

/-- The text of a `KeystrokeData` value inside the map: its four tagged
fields, in the order of the struct. -/
def renderRecord (data : KeystrokeData) : List Char :=
  '{' :: (renderMember 2 "date" (quote data.Date.toList) ++
    ',' :: (renderMember 2 "count" (formatInt data.Count) ++
    ',' :: (renderMember 2 "start_time" (formatInt data.StartTime) ++
    ',' :: (renderMember 2 "end_time" (formatInt data.EndTime) ++
    (newline 1 ++ ['}'])))))

/-- The members of the map object, separated by commas. -/
def renderEntries : List (String × KeystrokeData) → List Char
  | [] => []
  | [e] => renderMember 1 e.1 (renderRecord e.2)
  | e :: e' :: rest =>
    renderMember 1 e.1 (renderRecord e.2) ++ ',' :: renderEntries (e' :: rest)

/-- Library function `json.MarshalIndent(m, "", "  ")` on a
`map[string]*KeystrokeData`: an object with one member per entry, the keys in
sorted order.  It returns no error on a value of this type. -/
def MarshalIndent (m : DailyData) : String :=
  match sortSlice (fun a b => decide (a.1.toList < b.1.toList)) m with
  | [] => String.mk ['{', '}']
  | e :: rest => String.mk ('{' :: (renderEntries (e :: rest) ++ (newline 0 ++ ['}'])))

/-- The JSON value that the text of a record denotes. -/
def recordValue (data : KeystrokeData) : JSON :=
  JSON.object
    [("date", JSON.string data.Date), ("count", JSON.number data.Count),
     ("start_time", JSON.number data.StartTime), ("end_time", JSON.number data.EndTime)]

/-- The members that the text of the entries of a map denotes. -/
def entryValues (entries : List (String × KeystrokeData)) : List (String × JSON) :=
  entries.map (fun e => (e.1, recordValue e.2))

/-- The value of the field `kt.dailyData` in full: `none` for the nil map,
and `none` in an entry for a nil pointer. -/
abbrev PtrMap := Option (List (String × Option KeystrokeData))

/-- Map assignment `m[k] = p` on a map of pointers. -/
def PtrMap.set : List (String × Option KeystrokeData) → String → Option KeystrokeData →
    List (String × Option KeystrokeData)
  | [], k, p => [(k, p)]
  | (k', p') :: rest, k, p =>
    if k' = k then (k', p) :: rest else (k', p') :: PtrMap.set rest k p

/-- The letter to which the decoder folds a character when it compares an
object key with a field name, on the characters that fold to an ASCII letter:
the letters themselves, U+017F (long s) and U+212A (Kelvin sign). -/
def foldChar (c : Char) : Char :=
  if 97 ≤ c.toNat ∧ c.toNat ≤ 122 then Char.ofNat (c.toNat - 32)
  else if c.toNat = 0x17F then 'S'
  else if c.toNat = 0x212A then 'K'
  else c

/-- Whether an object key names the field tagged `name`, case-insensitively. -/
def nameMatches (key name : String) : Bool :=
  decide (key.toList.map foldChar = name.toList.map foldChar)

/-- The decoder on one member of an object that it decodes into a
`KeystrokeData`: a value of the field's kind is stored (an integer literal
as the `Int` it writes); a value of another kind (a type error, which is
recorded and does not stop the decoder), a `null` and a member of an unknown
name leave the struct as it is. -/
def decodeField (data : KeystrokeData) (member : String × JSON) : KeystrokeData :=
  if nameMatches member.1 "date" then
    match member.2 with
    | JSON.string s => { data with Date := s }
    | _ => data
  else if nameMatches member.1 "count" then
    match member.2 with
    | JSON.number n => { data with Count := n }
    | _ => data
  else if nameMatches member.1 "start_time" then
    match member.2 with
    | JSON.number n => { data with StartTime := n }
    | _ => data
  else if nameMatches member.1 "end_time" then
    match member.2 with
    | JSON.number n => { data with EndTime := n }
    | _ => data
  else data

/-- The decoder on a value that it decodes into a map element of type
`*KeystrokeData`: `null` gives the nil pointer, an object a new struct filled
member by member, and any other value a new zero struct (a type error). -/
def decodeRecord : JSON → Option KeystrokeData
  | JSON.null => none
  | JSON.object members =>
    some (members.foldl decodeField { Date := "", Count := 0, StartTime := 0, EndTime := 0 })
  | _ => some { Date := "", Count := 0, StartTime := 0, EndTime := 0 }

/-- The decoder on a value that it decodes into the map: `null` sets the map
to nil, an object assigns its members to the map (a new one when it was nil,
a later duplicate key replacing an earlier one), and any other value is a
type error that leaves the map as it is. -/
def decodeMap (v : JSON) (dst : PtrMap) : PtrMap :=
  match v with
  | JSON.null => none
  | JSON.object members =>
    some (members.foldl (fun m e => PtrMap.set m e.1 (decodeRecord e.2)) (dst.getD []))
  | _ => dst

/-- Library function `json.Unmarshal(data, &kt.dailyData)`, as its effect on
the map: none on a text that is not valid JSON, the decoder otherwise.  The
error it returns is the one `loadData` discards. -/
def Unmarshal (data : String) (dst : PtrMap) : PtrMap :=
  match parseJSON data.toList with
  | none => dst
  | some v => decodeMap v dst

/-- Method `saveData`: the bytes it hands to `os.WriteFile`, the content of
the data file after a write that succeeds. -/
def saveData (kt : KeyTracker) : String :=
  MarshalIndent kt.dailyData

/-- Method `loadData`, as its effect on the field `kt.dailyData`; `file` is
the content of the data file, `none` when `os.ReadFile` returns an error. -/
def loadData (dailyData : PtrMap) (file : Option String) : PtrMap :=
  match file with
  | none => dailyData
  | some data => Unmarshal data dailyData

/-- The entries of a map of pointers as records, when it holds no nil
pointer. -/
def PtrMap.entries : List (String × Option KeystrokeData) → Option DailyData
  | [] => some []
  | (_, none) :: _ => none
  | (k, some data) :: rest =>
    match PtrMap.entries rest with
    | none => none
    | some m => some ((k, data) :: m)

/-- The map of pointers as a map of records, when it is not nil and holds no
nil pointer. -/
def PtrMap.records : PtrMap → Option DailyData
  | none => none
  | some entries => PtrMap.entries entries

/-- Function `NewKeyTracker`: the tracker with an empty map after `loadData`.
It is `none` when the file put a `null` in the place of the map or of a
record: the tracker then holds a nil map or a nil pointer, which the
methods above do not expect. -/
def NewKeyTracker (file : Option String) : Option KeyTracker :=
  match PtrMap.records (loadData (some []) file) with
  | none => none
  | some m => some { dailyData := m, lastKeytime := none }

/-! ## The map operations -/

theorem DailyData.get_set_self (m : DailyData) (k : String) (v : KeystrokeData) :
    (m.set k v).get k = some v := by
  induction m with
  | nil => simp [DailyData.set, DailyData.get]
  | cons e rest ih =>
    obtain ⟨k', v'⟩ := e
    by_cases h : k' = k
    · simp [DailyData.set, DailyData.get, h]
    · simp [DailyData.set, DailyData.get, h, ih]

theorem DailyData.get_set_ne (m : DailyData) {k k' : String} (v : KeystrokeData)
    (hne : k' ≠ k) : (m.set k v).get k' = m.get k' := by
  induction m with
  | nil => simp [DailyData.set, DailyData.get, Ne.symm hne]
  | cons e rest ih =>
    obtain ⟨k₁, v₁⟩ := e
    by_cases h : k₁ = k
    · subst h
      simp [DailyData.set, DailyData.get, Ne.symm hne]
    · by_cases h' : k₁ = k'
      · subst h'
        simp [DailyData.set, DailyData.get, h]
      · simp [DailyData.set, DailyData.get, h, h', ih]

theorem DailyData.set_set (m : DailyData) (k : String) (v w : KeystrokeData) :
    (m.set k v).set k w = m.set k w := by
  induction m with
  | nil => simp [DailyData.set]
  | cons e rest ih =>
    obtain ⟨k₁, v₁⟩ := e
    by_cases h : k₁ = k
    · simp [DailyData.set, h]
    · simp [DailyData.set, h, ih]

/-- The entries of `m[k] = v`: those of `m`, and the pair `(k, v)`. -/
theorem DailyData.mem_set {m : DailyData} {k : String} {v : KeystrokeData}
    {e : String × KeystrokeData} (he : e ∈ m.set k v) : e ∈ m ∨ e = (k, v) := by
  induction m with
  | nil => simpa [DailyData.set] using he
  | cons e₁ rest ih =>
    obtain ⟨k₁, v₁⟩ := e₁
    by_cases h : k₁ = k
    · subst h
      simp only [DailyData.set, if_true, List.mem_cons] at he
      rcases he with he | he
      · exact Or.inr he
      · exact Or.inl (List.mem_cons_of_mem _ he)
    · simp only [DailyData.set, h, if_false, List.mem_cons] at he
      rcases he with he | he
      · exact Or.inl (he ▸ List.mem_cons_self _ _)
      · rcases ih he with h₁ | h₁
        · exact Or.inl (List.mem_cons_of_mem _ h₁)
        · exact Or.inr h₁

/-- The record a `recordKeystroke` call at `now` leaves under today's key,
from what the map held there (`none` for an absent key). -/
theorem recordKeystroke_eq (day : Int → String) (kt : KeyTracker) (now : Int) :
    recordKeystroke day kt now =
      some { dailyData := kt.dailyData.set (day now)
               (match kt.dailyData.get (day now) with
                | none => { Date := day now, Count := 1, StartTime := now, EndTime := now }
                | some d => { d with Count := d.Count + 1, EndTime := now })
             lastKeytime := some now } := by
  cases hget : kt.dailyData.get (day now) with
  | none =>
    simp [recordKeystroke, DailyData.update, hget, DailyData.get_set_self,
      DailyData.set_set]
  | some d =>
    simp [recordKeystroke, DailyData.update, hget, DailyData.get_set_self,
      DailyData.set_set]

/-! ## `recordKeystroke` on one day -/

/-- An integer in the range of `int64` is what it wraps around to. -/
theorem wrapInt64_of_range (x : Int) (hlo : -9223372036854775808 ≤ x)
    (hhi : x < 9223372036854775808) : wrapInt64 x = x := by
  unfold wrapInt64
  omega

theorem wrapInt64_range (x : Int) :
    -9223372036854775808 ≤ wrapInt64 x ∧ wrapInt64 x < 9223372036854775808 := by
  unfold wrapInt64
  omega

/-- The record a `recordKeystroke64` call at `now` leaves under today's key,
from what the map held there (`none` for an absent key). -/
theorem recordKeystroke64_eq (day : Int → String) (kt : KeyTracker) (now : Int) :
    recordKeystroke64 day kt now =
      some { dailyData := kt.dailyData.set (day now)
               (match kt.dailyData.get (day now) with
                | none => { Date := day now, Count := 1, StartTime := now, EndTime := now }
                | some d => { d with Count := wrapInt64 (d.Count + 1), EndTime := now })
             lastKeytime := some now } := by
  have h1 : wrapInt64 1 = 1 := by decide
  cases hget : kt.dailyData.get (day now) with
  | none =>
    simp [recordKeystroke64, DailyData.update, hget, DailyData.get_set_self,
      DailyData.set_set, h1]
  | some d =>
    simp [recordKeystroke64, DailyData.update, hget, DailyData.get_set_self,
      DailyData.set_set]

/-- The increment in the integers is the increment of `int` while the count of
today's record, if there is one, is in the range of `int` and below its
maximum. -/
theorem recordKeystroke64_eq_recordKeystroke (day : Int → String) (kt : KeyTracker)
    (now : Int)
    (h : ∀ r, kt.dailyData.get (day now) = some r →
      -9223372036854775808 ≤ r.Count ∧ r.Count < 9223372036854775807) :
    recordKeystroke64 day kt now = recordKeystroke day kt now := by
  rw [recordKeystroke64_eq, recordKeystroke_eq]
  cases hget : kt.dailyData.get (day now) with
  | none => rfl
  | some d =>
    obtain ⟨hlo, hhi⟩ := h d hget
    simp only [wrapInt64_of_range (d.Count + 1) (by omega) (by omega)]

/-- C1, amended: a `recordKeystroke` call with clock reading `t` succeeds, and
with `d = day t` the calendar day of `t`: when `d` is absent from the store,
the resulting store holds under `d` the record with date `d`, count 1 and
both event times `t`; when `d` is present with record `r`, the resulting
record of `d` has last event time `t` and the count `r.Count + 1` wrapped
around in `int`, which is `r.Count + 1` when `r.Count` is in the range of
`int` and below its maximum `2 ^ 63 - 1`, and `-2 ^ 63` when `r.Count` is that
maximum. -/
theorem recordKeystroke64_day_record (day : Int → String) (kt : KeyTracker) (t : Int) :
    (kt.dailyData.get (day t) = none →
      ∃ kt', recordKeystroke64 day kt t = some kt' ∧
        kt'.dailyData.get (day t) =
          some { Date := day t, Count := 1, StartTime := t, EndTime := t }) ∧
    (∀ r, kt.dailyData.get (day t) = some r →
      ∃ kt' r', recordKeystroke64 day kt t = some kt' ∧
        kt'.dailyData.get (day t) = some r' ∧
        r'.Count = wrapInt64 (r.Count + 1) ∧
        (-9223372036854775808 ≤ r.Count → r.Count < 9223372036854775807 →
          r'.Count = r.Count + 1) ∧
        (r.Count = 9223372036854775807 → r'.Count = -9223372036854775808) ∧
        r'.EndTime = t) := by
  refine ⟨fun habs => ⟨_, recordKeystroke64_eq day kt t, ?_⟩,
    fun r hr => ⟨_, { r with Count := wrapInt64 (r.Count + 1), EndTime := t },
      recordKeystroke64_eq day kt t, ?_, rfl, fun hlo hhi => ?_, fun hmax => ?_, rfl⟩⟩
  · simp [habs, DailyData.get_set_self]
  · simp [hr, DailyData.get_set_self]
  · exact wrapInt64_of_range _ (by omega) (by omega)
  · show wrapInt64 (r.Count + 1) = -9223372036854775808
    rw [hmax]
    decide

/-- C1, amended, at concrete inputs: a first event of 2024-01-01 on the empty
store, and an event 60 seconds later on a store that holds 7 events of that
day. -/
theorem recordKeystroke64_day_record_witness :
    (∃ kt', recordKeystroke64 utcDay KeyTracker.empty 1704067200 = some kt' ∧
      kt'.dailyData.get "2024-01-01" =
        some { Date := "2024-01-01", Count := 1, StartTime := 1704067200,
               EndTime := 1704067200 }) ∧
    (∃ kt' r', recordKeystroke64 utcDay
        { dailyData := [("2024-01-01",
            { Date := "2024-01-01", Count := 7, StartTime := 1704067200,
              EndTime := 1704067230 })],
          lastKeytime := some 1704067230 } 1704067260 = some kt' ∧
      kt'.dailyData.get "2024-01-01" = some r' ∧
      r'.Count = 7 + 1 ∧ r'.EndTime = 1704067260) := by
  refine ⟨(recordKeystroke64_day_record utcDay KeyTracker.empty 1704067200).1 (by decide),
    ?_⟩
  obtain ⟨kt', r', hrun, hget, _, hcount, _, hend⟩ :=
    (recordKeystroke64_day_record utcDay
      { dailyData := [("2024-01-01",
          { Date := "2024-01-01", Count := 7, StartTime := 1704067200,
            EndTime := 1704067230 })],
        lastKeytime := some 1704067230 } 1704067260).2
      { Date := "2024-01-01", Count := 7, StartTime := 1704067200,
        EndTime := 1704067230 } (by decide)
  exact ⟨kt', r', hrun, hget, hcount (by decide) (by decide), hend⟩

/-- C1 as stated fails: on a store whose record of 2024-01-01 has the count
9223372036854775807, the largest `int`, a `recordKeystroke` call on that day
leaves the count -9223372036854775808, not 9223372036854775807 + 1. -/
theorem recordKeystroke64_day_record_counterexample :
    DailyData.get
      [("2024-01-01",
        { Date := "2024-01-01", Count := 9223372036854775807, StartTime := 1704067200,
          EndTime := 1704067230 })] (utcDay 1704067260) =
      some { Date := "2024-01-01", Count := 9223372036854775807, StartTime := 1704067200,
             EndTime := 1704067230 } ∧
    recordKeystroke64 utcDay
      { dailyData := [("2024-01-01",
          { Date := "2024-01-01", Count := 9223372036854775807, StartTime := 1704067200,
            EndTime := 1704067230 })],
        lastKeytime := none } 1704067260 =
      some { dailyData := [("2024-01-01",
               { Date := "2024-01-01", Count := -9223372036854775808,
                 StartTime := 1704067200, EndTime := 1704067260 })],
             lastKeytime := some 1704067260 } ∧
    (-9223372036854775808 : Int) ≠ 9223372036854775807 + 1 := by
  refine ⟨by decide, by decide, by decide⟩

/-! ## Runs of `recordKeystroke` -/

theorem DailyData.mem_of_get {m : DailyData} {k : String} {v : KeystrokeData}
    (h : m.get k = some v) : (k, v) ∈ m := by
  induction m with
  | nil => simp [DailyData.get] at h
  | cons e rest ih =>
    obtain ⟨k₁, v₁⟩ := e
    by_cases hk : k₁ = k
    · subst hk
      simp only [DailyData.get, if_true, Option.some.injEq] at h
      subst h
      exact List.mem_cons_self _ _
    · simp only [DailyData.get, hk, if_false] at h
      exact List.mem_cons_of_mem _ (ih h)

theorem recordAll_cons (day : Int → String) (kt : KeyTracker) (t : Int) (rest : List Int) :
    recordAll day kt (t :: rest) =
      recordAll day
        { dailyData := kt.dailyData.set (day t)
            (match kt.dailyData.get (day t) with
             | none => { Date := day t, Count := 1, StartTime := t, EndTime := t }
             | some d => { d with Count := d.Count + 1, EndTime := t })
          lastKeytime := some t } rest := by
  simp [recordAll, recordKeystroke_eq]

/-- Events of a day that is present: each adds one to the count and moves the
last event time; the date and the first event time stay. -/
theorem recordAll_present (day : Int → String) (d : String) :
    ∀ (ts : List Int) (kt : KeyTracker) (r : KeystrokeData),
      (∀ t ∈ ts, day t = d) → kt.dailyData.get d = some r →
      ∃ kt', recordAll day kt ts = some kt' ∧
        kt'.dailyData.get d =
          some { r with Count := r.Count + ts.length, EndTime := ts.getLastD r.EndTime } := by
  intro ts
  induction ts with
  | nil =>
    intro kt r _ hr
    exact ⟨kt, rfl, by simpa using hr⟩
  | cons t rest ih =>
    intro kt r hday hr
    have ht : day t = d := hday t (List.mem_cons_self _ _)
    rw [recordAll_cons, ht, hr]
    obtain ⟨kt', hrun, hget⟩ :=
      ih { dailyData := kt.dailyData.set d { r with Count := r.Count + 1, EndTime := t }
           lastKeytime := some t }
        { r with Count := r.Count + 1, EndTime := t }
        (fun t' ht' => hday t' (List.mem_cons_of_mem _ ht'))
        (DailyData.get_set_self _ _ _)
    refine ⟨kt', hrun, ?_⟩
    rw [hget]
    simp only [List.length_cons, Nat.cast_add, Nat.cast_one, List.getLastD_cons]
    congr 2
    ring

theorem le_getLast_of_pairwise_le :
    ∀ (ts : List Int) (hne : ts ≠ []), ts.Pairwise (· ≤ ·) → ∀ t ∈ ts, t ≤ ts.getLast hne := by
  intro ts
  induction ts with
  | nil => intro hne; exact absurd rfl hne
  | cons a rest ih =>
    intro hne hp t ht
    rw [List.pairwise_cons] at hp
    by_cases hrest : rest = []
    · subst hrest
      simp only [List.mem_singleton] at ht
      simp [ht]
    · rw [List.getLast_cons hrest]
      rcases List.mem_cons.mp ht with h | h
      · subst h
        exact hp.1 _ (List.getLast_mem hrest)
      · exact ih hrest hp.2 t h

/-- C2, amended: a non-empty sequence of `N` clock readings of one calendar
day `d`, recorded in turn on a store without `d`, leaves under `d` a record
with date `d`, count `N`, first event time the first reading delivered and
last event time the last reading delivered; when the readings are delivered
in non-decreasing order, these are the earliest and the latest of them. -/
theorem recordAll_same_day (day : Int → String) (kt : KeyTracker) (ts : List Int)
    (d : String) (hne : ts ≠ []) (hday : ∀ t ∈ ts, day t = d)
    (habs : kt.dailyData.get d = none) :
    ∃ kt' r, recordAll day kt ts = some kt' ∧ kt'.dailyData.get d = some r ∧
      r.Date = d ∧ r.Count = ts.length ∧
      r.StartTime = ts.head hne ∧ r.EndTime = ts.getLast hne ∧
      (ts.Pairwise (· ≤ ·) → ∀ t ∈ ts, r.StartTime ≤ t ∧ t ≤ r.EndTime) := by
  cases ts with
  | nil => exact absurd rfl hne
  | cons t rest =>
    have ht : day t = d := hday t (List.mem_cons_self _ _)
    obtain ⟨kt', hrun, hget⟩ :=
      recordAll_present day d rest
        { dailyData := kt.dailyData.set d
            { Date := d, Count := 1, StartTime := t, EndTime := t }
          lastKeytime := some t }
        { Date := d, Count := 1, StartTime := t, EndTime := t }
        (fun t' ht' => hday t' (List.mem_cons_of_mem _ ht'))
        (DailyData.get_set_self _ _ _)
    refine ⟨kt', _, ?_, hget, rfl, ?_, rfl, ?_, ?_⟩
    · rw [recordAll_cons, ht, habs]
      exact hrun
    · simp only [List.length_cons, Nat.cast_add, Nat.cast_one]
      ring
    · simp only
      rw [List.getLast_eq_getLastD]
    · intro hp t' ht'
      have hlast : (t :: rest).getLast hne = rest.getLastD t := by
        rw [List.getLast_eq_getLastD]
      refine ⟨?_, ?_⟩
      · rcases List.mem_cons.mp ht' with h | h
        · simp [h]
        · exact (List.pairwise_cons.mp hp).1 t' h
      · have := le_getLast_of_pairwise_le (t :: rest) hne hp t' ht'
        rw [hlast] at this
        exact this

/-- C2, amended, at a concrete input: three events of 2024-01-01, thirty
seconds apart, recorded on the empty store. -/
theorem recordAll_same_day_witness :
    (∀ t ∈ [(1704067200 : Int), 1704067230, 1704067260], utcDay t = "2024-01-01") ∧
    KeyTracker.empty.dailyData.get "2024-01-01" = none ∧
    ∃ kt' r, recordAll utcDay KeyTracker.empty [1704067200, 1704067230, 1704067260]
        = some kt' ∧
      kt'.dailyData.get "2024-01-01" = some r ∧
      r.Date = "2024-01-01" ∧ r.Count = 3 ∧
      r.StartTime = 1704067200 ∧ r.EndTime = 1704067260 ∧
      ([(1704067200 : Int), 1704067230, 1704067260].Pairwise (· ≤ ·) →
        ∀ t ∈ [(1704067200 : Int), 1704067230, 1704067260],
          r.StartTime ≤ t ∧ t ≤ r.EndTime) :=
  ⟨by decide, by decide,
   recordAll_same_day utcDay KeyTracker.empty [1704067200, 1704067230, 1704067260]
     "2024-01-01" (by decide) (by decide) (by decide)⟩

/-- C2 as stated fails: two events of 2024-01-01 delivered latest first leave
a record whose first event time is the later reading 1704067260 and whose
last event time is the earlier reading 1704067200, not the minimum and the
maximum of the two. -/
theorem recordAll_unordered_counterexample :
    (∀ t ∈ [(1704067260 : Int), 1704067200], utcDay t = "2024-01-01") ∧
    KeyTracker.empty.dailyData.get "2024-01-01" = none ∧
    ∃ kt' r, recordAll utcDay KeyTracker.empty [1704067260, 1704067200] = some kt' ∧
      kt'.dailyData.get "2024-01-01" = some r ∧
      r.StartTime = 1704067260 ∧ r.EndTime = 1704067200 ∧
      r.StartTime ≠ min 1704067260 1704067200 ∧
      r.EndTime ≠ max 1704067260 1704067200 :=
  ⟨by decide, by decide,
   { dailyData := [("2024-01-01",
       { Date := "2024-01-01", Count := 2, StartTime := 1704067260,
         EndTime := 1704067200 })],
     lastKeytime := some 1704067200 },
   { Date := "2024-01-01", Count := 2, StartTime := 1704067260, EndTime := 1704067200 },
   by decide, by decide, rfl, rfl, by decide, by decide⟩

/-! ## The invariants of the stored records -/

/-- A run of `recordKeystroke` calls succeeds and keeps every count at least
1; it keeps each record's last event time at or after its first event time
when readings of one calendar day arrive in non-decreasing order. -/
theorem recordAll_preserves (day : Int → String) :
    ∀ (ts : List Int) (kt : KeyTracker),
      (∀ e ∈ kt.dailyData, 1 ≤ e.2.Count) →
      ∃ kt', recordAll day kt ts = some kt' ∧
        (∀ e ∈ kt'.dailyData, 1 ≤ e.2.Count) ∧
        (ts.Pairwise (fun a b => day a = day b → a ≤ b) →
          (∀ e ∈ kt.dailyData, e.2.StartTime ≤ e.2.EndTime ∧
            ∀ t ∈ ts, day t = e.1 → e.2.StartTime ≤ t) →
          ∀ e ∈ kt'.dailyData, e.2.StartTime ≤ e.2.EndTime) := by
  intro ts
  induction ts with
  | nil =>
    intro kt hc
    exact ⟨kt, rfl, hc, fun _ h e he => (h e he).1⟩
  | cons t rest ih =>
    intro kt hc
    rw [recordAll_cons]
    obtain ⟨kt', hrun, hc', hord⟩ := ih
      { dailyData := kt.dailyData.set (day t)
          (match kt.dailyData.get (day t) with
           | none => { Date := day t, Count := 1, StartTime := t, EndTime := t }
           | some d => { d with Count := d.Count + 1, EndTime := t })
        lastKeytime := some t }
      (by
        intro e he
        rcases DailyData.mem_set he with h | h
        · exact hc e h
        · subst h
          cases hget : kt.dailyData.get (day t) with
          | none => simp
          | some d =>
            have hd : 1 ≤ d.Count := hc _ (DailyData.mem_of_get hget)
            simp only
            omega)
    refine ⟨kt', hrun, hc', fun hp hinv => hord (List.pairwise_cons.mp hp).2 ?_⟩
    intro e he
    rcases DailyData.mem_set he with h | h
    · exact ⟨(hinv e h).1, fun t' ht' => (hinv e h).2 t' (List.mem_cons_of_mem _ ht')⟩
    · subst h
      cases hget : kt.dailyData.get (day t) with
      | none =>
        refine ⟨le_refl _, fun t' ht' hd => ?_⟩
        exact (List.pairwise_cons.mp hp).1 t' ht' hd.symm
      | some d =>
        have hd := hinv _ (DailyData.mem_of_get hget)
        exact ⟨hd.2 t (List.mem_cons_self _ _) rfl,
          fun t' ht' => hd.2 t' (List.mem_cons_of_mem _ ht')⟩

/-- C3, amended: every store reached from the empty store by `recordKeystroke`
calls, whatever the clock readings, holds only records with count at least 1;
and when the readings of each calendar day are delivered in non-decreasing
order, every record has its last event time at or after its first. -/
theorem recordAll_invariant (day : Int → String) (ts : List Int) :
    ∃ kt, recordAll day KeyTracker.empty ts = some kt ∧
      (∀ e ∈ kt.dailyData, 1 ≤ e.2.Count) ∧
      (ts.Pairwise (fun a b => day a = day b → a ≤ b) →
        ∀ e ∈ kt.dailyData, e.2.StartTime ≤ e.2.EndTime) := by
  obtain ⟨kt, hrun, hc, hord⟩ :=
    recordAll_preserves day ts KeyTracker.empty (by simp [KeyTracker.empty])
  exact ⟨kt, hrun, hc, fun hp => hord hp (by simp [KeyTracker.empty])⟩

/-- C3, amended, at a concrete input: events on two days, in clock order. -/
theorem recordAll_invariant_witness :
    ∃ kt, recordAll utcDay KeyTracker.empty [1704067200, 1704067325, 1704153600]
        = some kt ∧
      (∀ e ∈ kt.dailyData, 1 ≤ e.2.Count) ∧
      ([(1704067200 : Int), 1704067325, 1704153600].Pairwise
          (fun a b => utcDay a = utcDay b → a ≤ b) →
        ∀ e ∈ kt.dailyData, e.2.StartTime ≤ e.2.EndTime) :=
  recordAll_invariant utcDay [1704067200, 1704067325, 1704153600]

/-- C3 as stated fails: from the empty store, the readings 1704067325 then
1704067200 of 2024-01-01 lead to a store whose record of that day has its last
event time 125 seconds before its first. -/
theorem recordAll_invariant_counterexample :
    ∃ kt e, recordAll utcDay KeyTracker.empty [1704067325, 1704067200] = some kt ∧
      e ∈ kt.dailyData ∧ e.2.EndTime < e.2.StartTime :=
  ⟨{ dailyData := [("2024-01-01",
       { Date := "2024-01-01", Count := 2, StartTime := 1704067325,
         EndTime := 1704067200 })],
     lastKeytime := some 1704067200 },
   ("2024-01-01",
     { Date := "2024-01-01", Count := 2, StartTime := 1704067325,
       EndTime := 1704067200 }),
   by decide, by decide, by decide⟩

/-! ## The entry list as a map -/

theorem DailyData.get_eq_none_iff (m : DailyData) (k : String) :
    m.get k = none ↔ k ∉ m.map Prod.fst := by
  induction m with
  | nil => simp [DailyData.get]
  | cons e rest ih =>
    obtain ⟨k₁, v₁⟩ := e
    by_cases h : k₁ = k
    · simp [DailyData.get, h]
    · simp only [DailyData.get, h, if_false, ih, List.map_cons, List.mem_cons, not_or]
      exact ⟨fun hr => ⟨fun hk => h hk.symm, hr⟩, fun hr => hr.2⟩

/-- The keys after `m[k] = v`: unchanged when `k` is present, and `k` added
when it is absent. -/
theorem DailyData.keys_set (m : DailyData) (k : String) (v : KeystrokeData) :
    (m.set k v).map Prod.fst =
      if k ∈ m.map Prod.fst then m.map Prod.fst else m.map Prod.fst ++ [k] := by
  induction m with
  | nil => simp [DailyData.set]
  | cons e rest ih =>
    obtain ⟨k₁, v₁⟩ := e
    by_cases h : k₁ = k
    · simp [DailyData.set, h]
    · have h' : ¬ k = k₁ := fun hk => h hk.symm
      simp only [DailyData.set, h, if_false, List.map_cons, ih, List.mem_cons, h', false_or]
      split_ifs <;> simp

/-- Every store reached from the empty one by `recordKeystroke` calls is a
map: its keys are pairwise distinct, and each record carries its key as date. -/
theorem recordAll_keys (day : Int → String) :
    ∀ (ts : List Int) (kt : KeyTracker),
      (kt.dailyData.map Prod.fst).Nodup → (∀ e ∈ kt.dailyData, e.2.Date = e.1) →
      ∃ kt', recordAll day kt ts = some kt' ∧
        (kt'.dailyData.map Prod.fst).Nodup ∧ ∀ e ∈ kt'.dailyData, e.2.Date = e.1 := by
  intro ts
  induction ts with
  | nil => intro kt hnd hkey; exact ⟨kt, rfl, hnd, hkey⟩
  | cons t rest ih =>
    intro kt hnd hkey
    rw [recordAll_cons]
    apply ih
    · rw [DailyData.keys_set]
      split_ifs with hmem
      · exact hnd
      · exact List.Nodup.append hnd (List.nodup_singleton _)
          (List.disjoint_singleton.mpr hmem)
    · intro e he
      rcases DailyData.mem_set he with h | h
      · exact hkey e h
      · subst h
        cases hget : kt.dailyData.get (day t) with
        | none => rfl
        | some d => exact hkey (day t, d) (DailyData.mem_of_get hget)

/-! ## Interleaved writers and readers -/

/-- The sum of the counts after `m[k] = v`: the count of `v` replaces the
count the map held under `k`. -/
theorem DailyData.sum_count_set (m : DailyData) (k : String) (v : KeystrokeData) :
    ((m.set k v).map (fun e => e.2.Count)).sum =
      (m.map (fun e => e.2.Count)).sum + v.Count -
        (match m.get k with
         | none => 0
         | some d => d.Count) := by
  induction m with
  | nil => simp [DailyData.set, DailyData.get]
  | cons e rest ih =>
    obtain ⟨k₁, v₁⟩ := e
    by_cases h : k₁ = k
    · simp only [DailyData.set, DailyData.get, h, if_true, List.map_cons, List.sum_cons]
      ring
    · simp only [DailyData.set, DailyData.get, h, if_false, List.map_cons, List.sum_cons, ih]
      ring

/-- One `recordKeystroke` call adds exactly one to the sum of the counts. -/
theorem recordKeystroke_sum_count (day : Int → String) (kt : KeyTracker) (t : Int) :
    ∃ kt', recordKeystroke day kt t = some kt' ∧
      (kt'.dailyData.map (fun e => e.2.Count)).sum =
        (kt.dailyData.map (fun e => e.2.Count)).sum + 1 := by
  refine ⟨_, recordKeystroke_eq day kt t, ?_⟩
  simp only [DailyData.sum_count_set]
  cases kt.dailyData.get (day t) with
  | none => simp
  | some d => simp only; ring

theorem runOps_sum_count (day : Int → String) :
    ∀ (ops : List Op) (kt : KeyTracker),
      ∃ kt' outs, runOps day kt ops = some (kt', outs) ∧
        (kt'.dailyData.map (fun e => e.2.Count)).sum =
          (kt.dailyData.map (fun e => e.2.Count)).sum + (ops.countP Op.isRecord : Int) ∧
        outs.length = ops.count Op.stats := by
  intro ops
  induction ops with
  | nil => intro kt; exact ⟨kt, [], rfl, by simp, by simp⟩
  | cons op rest ih =>
    intro kt
    cases op with
    | record t =>
      obtain ⟨kt₁, hrec, hsum₁⟩ := recordKeystroke_sum_count day kt t
      obtain ⟨kt', outs, hrun, hsum, hlen⟩ := ih kt₁
      refine ⟨kt', outs, by simp [runOps, hrec, hrun], ?_, ?_⟩
      · rw [hsum, hsum₁, List.countP_cons_of_pos _ _ (by rfl)]
        push_cast
        ring
      · rw [hlen, List.count_cons_of_ne (show Op.stats ≠ Op.record t from Op.noConfusion)]
    | stats =>
      obtain ⟨kt', outs, hrun, hsum, hlen⟩ := ih kt
      refine ⟨kt', getDailyStats kt :: outs, by simp [runOps, hrun], ?_, ?_⟩
      · rw [hsum, List.countP_cons_of_neg _ _ (by simp [Op.isRecord])]
      · simp [hlen]

/-- C4: every serialised run of `recordKeystroke` and `getDailyStats` calls
from the empty store, whatever the clock readings and the interleaving, runs
to the end without a failing operation, returns one result per
`getDailyStats` call, and leaves a store whose counts sum to the number of
`recordKeystroke` calls; so 1000 writer calls interleaved with 10 reader
calls leave a total of exactly 1000 and 10 results. -/
theorem runOps_no_lost_update (day : Int → String) (ops : List Op) :
    ∃ kt outs, runOps day KeyTracker.empty ops = some (kt, outs) ∧
      (kt.dailyData.map (fun e => e.2.Count)).sum = (ops.countP Op.isRecord : Int) ∧
      outs.length = ops.count Op.stats ∧
      (ops.countP Op.isRecord = 1000 → ops.count Op.stats = 10 →
        (kt.dailyData.map (fun e => e.2.Count)).sum = 1000 ∧ outs.length = 10) := by
  obtain ⟨kt, outs, hrun, hsum, hlen⟩ := runOps_sum_count day ops KeyTracker.empty
  have hsum' : (kt.dailyData.map (fun e => e.2.Count)).sum = (ops.countP Op.isRecord : Int) := by
    simpa [KeyTracker.empty] using hsum
  refine ⟨kt, outs, hrun, hsum', hlen, fun h₁ h₂ => ⟨?_, ?_⟩⟩
  · rw [hsum', h₁]
    rfl
  · rw [hlen, h₂]

/-- C4 at a concrete input: ten rounds of 60 events of 2024-01-01, a reader
call and 40 events of 2024-01-02. -/
theorem runOps_no_lost_update_witness :
    ∃ kt outs,
      runOps utcDay KeyTracker.empty
        (List.replicate 10
          (List.replicate 60 (Op.record 1704067200) ++ [Op.stats] ++
            List.replicate 40 (Op.record 1704153600))).flatten = some (kt, outs) ∧
      (kt.dailyData.map (fun e => e.2.Count)).sum = 1000 ∧ outs.length = 10 := by
  obtain ⟨kt, outs, hrun, _, _, h⟩ :=
    runOps_no_lost_update utcDay
      (List.replicate 10
        (List.replicate 60 (Op.record 1704067200) ++ [Op.stats] ++
          List.replicate 40 (Op.record 1704153600))).flatten
  refine ⟨kt, outs, hrun, h ?_ ?_⟩
  · simp only [List.countP_flatten, List.map_replicate, List.sum_replicate,
      List.countP_append, List.countP_replicate, Op.isRecord, List.countP_cons,
      List.countP_nil]
    rfl
  · simp only [List.count_flatten, List.map_replicate, List.sum_replicate,
      List.count_append, List.count_replicate, List.count_cons, List.count_nil]
    rfl

/-! ## `getDailyStats` -/

theorem sortSlice_perm {α : Type} (less : α → α → Bool) (xs : List α) :
    (sortSlice less xs).Perm xs :=
  List.perm_insertionSort _ xs

/-- The result of `getDailyStats` is a rearrangement of the views of the
entries of the store. -/
theorem getDailyStats_perm (kt : KeyTracker) :
    (getDailyStats kt).Perm (kt.dailyData.map (fun e => dailyStat e.2)) :=
  sortSlice_perm _ _

theorem mem_getDailyStats {kt : KeyTracker} {s : DailyStats} :
    s ∈ getDailyStats kt ↔ ∃ e ∈ kt.dailyData, dailyStat e.2 = s := by
  rw [(getDailyStats_perm kt).mem_iff]
  simp

/-- The comparison of `getDailyStats`, negated and flipped, is the order of
the dates. -/
theorem not_less_iff_date_le (a b : DailyStats) :
    decide (b.Date.toList < a.Date.toList) = false ↔ a.Date ≤ b.Date := by
  rw [decide_eq_false_iff_not, String.le_iff_toList_le, not_lt]

theorem getDailyStats_pairwise (kt : KeyTracker) :
    (getDailyStats kt).Pairwise (fun a b => a.Date ≤ b.Date) := by
  have htotal : IsTotal DailyStats
      (fun a b => decide (b.Date.toList < a.Date.toList) = false) :=
    ⟨fun a b => by
      simp only [not_less_iff_date_le]
      exact le_total a.Date b.Date⟩
  have htrans : IsTrans DailyStats
      (fun a b => decide (b.Date.toList < a.Date.toList) = false) :=
    ⟨fun a b c => by
      simp only [not_less_iff_date_le]
      exact le_trans⟩
  have hsorted := List.sorted_insertionSort
    (fun a b : DailyStats => decide (b.Date.toList < a.Date.toList) = false)
    (kt.dailyData.map (fun e => dailyStat e.2))
  exact List.Pairwise.imp (fun {a b} h => (not_less_iff_date_le a b).mp h) hsorted

/-- C6: for every store, and so for every order in which its days were
inserted or are iterated (the order of the entry list), the sequence
`getDailyStats` returns is in ascending lexicographic order of the date
strings: each entry's date is at most the date of every later entry. -/
theorem getDailyStats_sorted (kt : KeyTracker) :
    List.Sorted (· ≤ ·) ((getDailyStats kt).map (fun s => s.Date)) := by
  rw [List.Sorted, List.pairwise_map]
  exact getDailyStats_pairwise kt

/-- The number of binary digits: `2 ^ (b - 1) ≤ n < 2 ^ b`. -/
theorem bitLength_spec :
    ∀ (fuel n : Nat), 0 < n → n ≤ fuel →
      2 ^ (bitLength fuel n - 1) ≤ n ∧ n < 2 ^ (bitLength fuel n) ∧ 0 < bitLength fuel n := by
  intro fuel
  induction fuel with
  | zero => intro n hn hle; omega
  | succ fuel ih =>
    intro n hn hle
    have hn0 : n ≠ 0 := by omega
    simp only [bitLength, hn0, if_false, Nat.add_sub_cancel]
    by_cases h1 : n / 2 = 0
    · have hn1 : n = 1 := by omega
      subst hn1
      cases fuel <;> simp [bitLength]
    · obtain ⟨hlo, hhi, hpos⟩ := ih (n / 2) (by omega) (by omega)
      refine ⟨?_, ?_, by omega⟩
      · have : 2 ^ bitLength fuel (n / 2) = 2 ^ (bitLength fuel (n / 2) - 1) * 2 := by
          rw [← pow_succ]
          congr 1
          omega
        rw [this]
        omega
      · rw [pow_succ]
        omega

/-- Rounding to nearest: the result is within one half of `num / den`. -/
theorem roundHalfEven_spec (num den : Nat) (hden : 0 < den) :
    2 * (roundHalfEven num den * den) ≤ 2 * num + den ∧
    2 * num ≤ 2 * (roundHalfEven num den * den) + den := by
  have hdm := Nat.div_add_mod num den
  have hlt := Nat.mod_lt num hden
  have hmul : (num / den + 1) * den = den * (num / den) + den := by ring
  have hmul0 : num / den * den = den * (num / den) := by ring
  unfold roundHalfEven
  split_ifs <;> (first | rw [hmul] | rw [hmul0]) <;> omega

/-- The binary exponent of a quotient is a lower bound: `2 ^ e ≤ p / q`. -/
theorem binaryExponent_le (p q : Nat) (hp : 0 < p) (hq : 0 < q) :
    (2 : ℚ) ^ binaryExponent p q * (q : ℚ) ≤ (p : ℚ) := by
  obtain ⟨hplo, -, hppos⟩ := bitLength_spec p p hp le_rfl
  obtain ⟨-, hqhi, hqpos⟩ := bitLength_spec q q hq le_rfl
  unfold binaryExponent
  generalize bitLength p p = bp at *
  generalize bitLength q q = bq at *
  have h2 : (0 : ℚ) < 2 := by norm_num
  split_ifs with h
  · rcases le_total bq bp with hle | hle
    · obtain ⟨k, rfl⟩ := Nat.exists_eq_add_of_le hle
      have e1 : ((bq + k : Nat) : Int) - (bq : Int) = (k : Int) := by push_cast; ring
      have e2 : ((bq : Int) - ((bq + k : Nat) : Int)).toNat = 0 := by
        rw [Int.toNat_eq_zero]; push_cast; omega
      rw [e1, e2] at h
      rw [e1, zpow_natCast]
      simp only [Int.toNat_ofNat, pow_zero, mul_one] at h
      have : ((q * 2 ^ k : Nat) : ℚ) ≤ (p : ℚ) := by exact_mod_cast h
      push_cast at this
      linarith
    · obtain ⟨k, rfl⟩ := Nat.exists_eq_add_of_le hle
      have e1 : ((bp + k : Nat) : Int) - (bp : Int) = (k : Int) := by push_cast; ring
      have e2 : ((bp : Int) - ((bp + k : Nat) : Int)).toNat = 0 := by
        rw [Int.toNat_eq_zero]; push_cast; omega
      have e3 : (bp : Int) - ((bp + k : Nat) : Int) = -(k : Int) := by push_cast; ring
      rw [e1, e2] at h
      rw [e3, zpow_neg, zpow_natCast]
      simp only [Int.toNat_ofNat, pow_zero, mul_one] at h
      have h' : ((q : Nat) : ℚ) ≤ ((p * 2 ^ k : Nat) : ℚ) := by exact_mod_cast h
      push_cast at h'
      have hk : (0 : ℚ) < 2 ^ k := by positivity
      rw [inv_mul_le_iff₀ hk]
      linarith
  · have hq' : (q : ℚ) ≤ (2 : ℚ) ^ (bq : Int) := by
      rw [zpow_natCast]
      exact_mod_cast hqhi.le
    have hp' : (2 : ℚ) ^ ((bp : Int) - 1) ≤ (p : ℚ) := by
      have : ((bp : Int) - 1) = ((bp - 1 : Nat) : Int) := by omega
      rw [this, zpow_natCast]
      exact_mod_cast hplo
    have hsplit : (2 : ℚ) ^ ((bp : Int) - 1) =
        (2 : ℚ) ^ ((bp : Int) - (bq : Int) - 1) * (2 : ℚ) ^ (bq : Int) := by
      rw [← zpow_add₀ (by norm_num : (2 : ℚ) ≠ 0)]
      congr 1
      ring
    have hpos : (0 : ℚ) < (2 : ℚ) ^ ((bp : Int) - (bq : Int) - 1) := by positivity
    calc (2 : ℚ) ^ ((bp : Int) - (bq : Int) - 1) * (q : ℚ)
        ≤ (2 : ℚ) ^ ((bp : Int) - (bq : Int) - 1) * (2 : ℚ) ^ (bq : Int) :=
          mul_le_mul_of_nonneg_left hq' hpos.le
      _ = (2 : ℚ) ^ ((bp : Int) - 1) := hsplit.symm
      _ ≤ (p : ℚ) := hp'

/-- The binary exponent of a quotient is sharp: `p / q < 2 ^ (e + 1)`. -/
theorem lt_binaryExponent (p q : Nat) (hp : 0 < p) (hq : 0 < q) :
    (p : ℚ) < (2 : ℚ) ^ (binaryExponent p q + 1) * (q : ℚ) := by
  obtain ⟨-, hphi, hppos⟩ := bitLength_spec p p hp le_rfl
  obtain ⟨hqlo, -, hqpos⟩ := bitLength_spec q q hq le_rfl
  unfold binaryExponent
  generalize bitLength p p = bp at *
  generalize bitLength q q = bq at *
  have h20 : (2 : ℚ) ≠ 0 := by norm_num
  split_ifs with h
  · have hq' : (2 : ℚ) ^ ((bq : Int) - 1) ≤ (q : ℚ) := by
      have : ((bq : Int) - 1) = ((bq - 1 : Nat) : Int) := by omega
      rw [this, zpow_natCast]
      exact_mod_cast hqlo
    have hp' : (p : ℚ) < (2 : ℚ) ^ (bp : Int) := by
      rw [zpow_natCast]
      exact_mod_cast hphi
    have hsplit : (2 : ℚ) ^ (bp : Int) =
        (2 : ℚ) ^ ((bp : Int) - (bq : Int) + 1) * (2 : ℚ) ^ ((bq : Int) - 1) := by
      rw [← zpow_add₀ h20]
      congr 1
      ring
    have hpos : (0 : ℚ) < (2 : ℚ) ^ ((bp : Int) - (bq : Int) + 1) := by positivity
    calc (p : ℚ) < (2 : ℚ) ^ (bp : Int) := hp'
      _ = (2 : ℚ) ^ ((bp : Int) - (bq : Int) + 1) * (2 : ℚ) ^ ((bq : Int) - 1) := hsplit
      _ ≤ (2 : ℚ) ^ ((bp : Int) - (bq : Int) + 1) * (q : ℚ) :=
          mul_le_mul_of_nonneg_left hq' hpos.le
  · rw [not_le] at h
    have he : (bp : Int) - (bq : Int) - 1 + 1 = (bp : Int) - (bq : Int) := by ring
    rw [he]
    rcases le_total bq bp with hle | hle
    · obtain ⟨k, rfl⟩ := Nat.exists_eq_add_of_le hle
      have e1 : ((bq + k : Nat) : Int) - (bq : Int) = (k : Int) := by push_cast; ring
      have e2 : ((bq : Int) - ((bq + k : Nat) : Int)).toNat = 0 := by
        rw [Int.toNat_eq_zero]; push_cast; omega
      rw [e1, e2] at h
      rw [e1, zpow_natCast]
      simp only [Int.toNat_ofNat, pow_zero, mul_one] at h
      have : ((p : Nat) : ℚ) < ((q * 2 ^ k : Nat) : ℚ) := by exact_mod_cast h
      push_cast at this
      linarith
    · obtain ⟨k, rfl⟩ := Nat.exists_eq_add_of_le hle
      have e1 : ((bp + k : Nat) : Int) - (bp : Int) = (k : Int) := by push_cast; ring
      have e2 : ((bp : Int) - ((bp + k : Nat) : Int)).toNat = 0 := by
        rw [Int.toNat_eq_zero]; push_cast; omega
      have e3 : (bp : Int) - ((bp + k : Nat) : Int) = -(k : Int) := by push_cast; ring
      rw [e1, e2] at h
      rw [e3, zpow_neg, zpow_natCast]
      simp only [Int.toNat_ofNat, pow_zero, mul_one] at h
      have h' : ((p * 2 ^ k : Nat) : ℚ) < ((q : Nat) : ℚ) := by exact_mod_cast h
      push_cast at h'
      have hk : (0 : ℚ) < 2 ^ k := by positivity
      rw [lt_inv_mul_iff₀ hk]
      linarith

/-- The rounded significand, scaled back, is within one part in `2 ^ 53` of
the quotient. -/
theorem significand_err (p q : Nat) (hp : 0 < p) (hq : 0 < q) :
    |(significand p q : ℚ) * (2 : ℚ) ^ (binaryExponent p q - 52) - (p : ℚ) / (q : ℚ)| ≤
      (p : ℚ) / (q : ℚ) / 2 ^ 53 := by
  have hle := binaryExponent_le p q hp hq
  have hq0 : (0 : ℚ) < (q : ℚ) := by exact_mod_cast hq
  have h20 : (2 : ℚ) ≠ 0 := by norm_num
  obtain ⟨h1, h2⟩ := roundHalfEven_spec (p * 2 ^ (52 - binaryExponent p q).toNat)
    (q * 2 ^ (binaryExponent p q - 52).toNat) (by positivity)
  unfold significand
  generalize roundHalfEven (p * 2 ^ (52 - binaryExponent p q).toNat)
    (q * 2 ^ (binaryExponent p q - 52).toNat) = r at h1 h2 ⊢
  generalize binaryExponent p q = e at *
  have hAE : ((2 : ℚ) ^ (52 - e).toNat) * (2 : ℚ) ^ (e - 52) = (2 : ℚ) ^ (e - 52).toNat := by
    rw [← zpow_natCast, ← zpow_natCast, ← zpow_add₀ h20]
    congr 1
    omega
  have hE : (2 : ℚ) ^ (e - 52) = (2 : ℚ) ^ e / 2 ^ 52 := by
    rw [zpow_sub₀ h20]
    norm_num
  have hA : (0 : ℚ) < (2 : ℚ) ^ (52 - e).toNat := by positivity
  have hEpos : (0 : ℚ) < (2 : ℚ) ^ (e - 52) := by positivity
  have h1q : (2 : ℚ) * ((r : ℚ) * ((q : ℚ) * (2 : ℚ) ^ (e - 52).toNat)) ≤
      2 * ((p : ℚ) * (2 : ℚ) ^ (52 - e).toNat) + (q : ℚ) * (2 : ℚ) ^ (e - 52).toNat := by
    exact_mod_cast h1
  have h2q : (2 : ℚ) * ((p : ℚ) * (2 : ℚ) ^ (52 - e).toNat) ≤
      2 * ((r : ℚ) * ((q : ℚ) * (2 : ℚ) ^ (e - 52).toNat)) +
        (q : ℚ) * (2 : ℚ) ^ (e - 52).toNat := by
    exact_mod_cast h2
  rw [← hAE] at h1q h2q
  generalize (2 : ℚ) ^ (52 - e).toNat = A at *
  generalize hEdef : (2 : ℚ) ^ (e - 52) = E at *
  have k1 : 2 * ((r : ℚ) * E * q) ≤ 2 * p + q * E := by
    have : A * (2 * ((r : ℚ) * E * q)) ≤ A * (2 * p + q * E) := by linarith
    exact le_of_mul_le_mul_left this hA
  have k2 : 2 * (p : ℚ) ≤ 2 * ((r : ℚ) * E * q) + q * E := by
    have : A * (2 * (p : ℚ)) ≤ A * (2 * ((r : ℚ) * E * q) + q * E) := by linarith
    exact le_of_mul_le_mul_left this hA
  have hpe : (2 : ℚ) ^ e ≤ (p : ℚ) / q := (le_div_iff₀ hq0).mpr hle
  have hT : E / 2 ≤ (p : ℚ) / q / 2 ^ 53 := by
    rw [hE]
    have : (2 : ℚ) ^ e / 2 ^ 52 / 2 = (2 : ℚ) ^ e / 2 ^ 53 := by
      rw [div_div]
      norm_num
    rw [this]
    exact div_le_div_of_nonneg_right hpe (by positivity)
  have hTq := mul_le_mul_of_nonneg_left hT hq0.le
  have hdiff : (r : ℚ) * E - (p : ℚ) / q = ((r : ℚ) * E * q - p) / q := by
    field_simp
  rw [hdiff, abs_le]
  constructor
  · rw [le_div_iff₀ hq0]
    linarith
  · rw [div_le_iff₀ hq0]
    linarith

theorem sign_mul_natAbs_cast (x : Int) : ((x.sign : Int) : ℚ) * ((x.natAbs : Nat) : ℚ) = (x : ℚ) := by
  rw [← Int.cast_natCast, ← Int.cast_mul, Int.sign_mul_natAbs]

theorem cast_sign_mul_self (y : Int) (hy : y ≠ 0) :
    ((y.sign : Int) : ℚ) * ((y.sign : Int) : ℚ) = 1 := by
  rcases lt_trichotomy y 0 with h | h | h
  · simp [Int.sign_eq_neg_one_of_neg h]
  · exact absurd h hy
  · simp [Int.sign_eq_one_of_pos h]

theorem cast_div_eq_sign (x y : Int) (hy : y ≠ 0) :
    (x : ℚ) / (y : ℚ) =
      (((x.sign : Int) : ℚ) * ((y.sign : Int) : ℚ)) *
        (((x.natAbs : Nat) : ℚ) / ((y.natAbs : Nat) : ℚ)) := by
  have hsy := cast_sign_mul_self y hy
  have hsyinv : ((y.sign : Int) : ℚ)⁻¹ = ((y.sign : Int) : ℚ) := by
    have hne : ((y.sign : Int) : ℚ) ≠ 0 := by
      intro h; rw [h] at hsy; norm_num at hsy
    field_simp
    linarith [hsy]
  conv_lhs => rw [← sign_mul_natAbs_cast x, ← sign_mul_natAbs_cast y]
  rw [mul_div_mul_comm, div_eq_mul_inv ((x.sign : Int) : ℚ), hsyinv]

/-- The float64 quotient is within one part in `2 ^ 53` of the exact one. -/
theorem divFloat64_err (x y : Int) :
    |divFloat64 x y - (x : ℚ) / (y : ℚ)| ≤ |(x : ℚ) / (y : ℚ)| / 2 ^ 53 := by
  unfold divFloat64
  split_ifs with h0
  · rcases h0 with h | h <;> simp [h]
  · push_neg at h0
    obtain ⟨hx, hy⟩ := h0
    have hp : 0 < x.natAbs := Int.natAbs_pos.mpr hx
    have hq : 0 < y.natAbs := Int.natAbs_pos.mpr hy
    have herr := significand_err x.natAbs y.natAbs hp hq
    have hsx := cast_sign_mul_self x hx
    have hsy := cast_sign_mul_self y hy
    have habs : |((x.sign : Int) : ℚ) * ((y.sign : Int) : ℚ)| = 1 := by
      have : (((x.sign : Int) : ℚ) * ((y.sign : Int) : ℚ)) *
          (((x.sign : Int) : ℚ) * ((y.sign : Int) : ℚ)) = 1 := by
        calc _ = (((x.sign : Int) : ℚ) * ((x.sign : Int) : ℚ)) *
              (((y.sign : Int) : ℚ) * ((y.sign : Int) : ℚ)) := by ring
          _ = 1 := by rw [hsx, hsy]; norm_num
      have h2 := abs_mul_abs_self (((x.sign : Int) : ℚ) * ((y.sign : Int) : ℚ))
      rw [this] at h2
      have hnn := abs_nonneg (((x.sign : Int) : ℚ) * ((y.sign : Int) : ℚ))
      nlinarith
    have hquot := cast_div_eq_sign x y hy
    have hval : (((x.sign * y.sign * (significand x.natAbs y.natAbs : Int) : Int) : ℚ)) *
        (2 : ℚ) ^ (binaryExponent x.natAbs y.natAbs - 52) - (x : ℚ) / (y : ℚ) =
        (((x.sign : Int) : ℚ) * ((y.sign : Int) : ℚ)) *
          ((significand x.natAbs y.natAbs : ℚ) *
            (2 : ℚ) ^ (binaryExponent x.natAbs y.natAbs - 52) -
            ((x.natAbs : Nat) : ℚ) / ((y.natAbs : Nat) : ℚ)) := by
      rw [hquot]
      push_cast
      ring
    have hnn : (0 : ℚ) ≤ ((x.natAbs : Nat) : ℚ) / ((y.natAbs : Nat) : ℚ) := by positivity
    rw [hval, abs_mul, habs, one_mul, hquot, abs_mul, habs, one_mul, abs_of_nonneg hnn]
    exact herr

/-- The float64 quotient is the exact one when the divisor divides a dividend
below `2 ^ 53` in magnitude. -/
theorem divFloat64_exact (x y : Int) (hy : y ≠ 0) (hdvd : y ∣ x) (hx : x.natAbs < 2 ^ 53) :
    divFloat64 x y = (x : ℚ) / (y : ℚ) := by
  by_cases hx0 : x = 0
  · simp [divFloat64, hx0]
  have hp : 0 < x.natAbs := Int.natAbs_pos.mpr hx0
  have hq : 0 < y.natAbs := Int.natAbs_pos.mpr hy
  have hq0 : (0 : ℚ) < ((y.natAbs : Nat) : ℚ) := by exact_mod_cast hq
  have h20 : (2 : ℚ) ≠ 0 := by norm_num
  obtain ⟨c, hc⟩ := Int.natAbs_dvd_natAbs.mpr hdvd
  have hle := binaryExponent_le x.natAbs y.natAbs hp hq
  have he : binaryExponent x.natAbs y.natAbs ≤ 52 := by
    by_contra hcon
    have h53 : (53 : Int) ≤ binaryExponent x.natAbs y.natAbs := by omega
    have hpow : (2 : ℚ) ^ (53 : Int) ≤ (2 : ℚ) ^ binaryExponent x.natAbs y.natAbs :=
      zpow_le_zpow_right₀ (by norm_num) h53
    have hq1 : (1 : ℚ) ≤ ((y.natAbs : Nat) : ℚ) := by exact_mod_cast hq
    have hxlt : ((x.natAbs : Nat) : ℚ) < 2 ^ 53 := by exact_mod_cast hx
    have hpos : (0 : ℚ) < (2 : ℚ) ^ binaryExponent x.natAbs y.natAbs := by positivity
    have : (2 : ℚ) ^ binaryExponent x.natAbs y.natAbs * 1 ≤
        (2 : ℚ) ^ binaryExponent x.natAbs y.natAbs * ((y.natAbs : Nat) : ℚ) :=
      mul_le_mul_of_nonneg_left hq1 hpos.le
    have h53' : (2 : ℚ) ^ (53 : Int) = 2 ^ 53 := by norm_num
    linarith
  have hsig : significand x.natAbs y.natAbs =
      c * 2 ^ (52 - binaryExponent x.natAbs y.natAbs).toNat := by
    have hb : (binaryExponent x.natAbs y.natAbs - 52).toNat = 0 := by
      rw [Int.toNat_eq_zero]; omega
    unfold significand
    rw [hb, pow_zero, mul_one]
    have hnum : x.natAbs * 2 ^ (52 - binaryExponent x.natAbs y.natAbs).toNat =
        y.natAbs * (c * 2 ^ (52 - binaryExponent x.natAbs y.natAbs).toNat) := by
      rw [hc]; ring
    rw [hnum]
    unfold roundHalfEven
    rw [Nat.mul_mod_right, Nat.mul_div_cancel_left _ hq]
    simp [hq]
  have hone : ((2 : ℚ) ^ (52 - binaryExponent x.natAbs y.natAbs).toNat) *
      (2 : ℚ) ^ (binaryExponent x.natAbs y.natAbs - 52) = 1 := by
    rw [← zpow_natCast, ← zpow_add₀ h20]
    have : ((52 - binaryExponent x.natAbs y.natAbs).toNat : Int) +
        (binaryExponent x.natAbs y.natAbs - 52) = 0 := by omega
    rw [this, zpow_zero]
  have hpq : ((x.natAbs : Nat) : ℚ) / ((y.natAbs : Nat) : ℚ) = (c : ℚ) := by
    rw [hc]
    push_cast
    field_simp
  rw [cast_div_eq_sign x y hy, hpq]
  simp only [divFloat64, hx0, hy, or_self, if_false, hsig]
  push_cast
  rw [mul_assoc, mul_assoc, mul_assoc, hone]
  ring

/-- The conversion `float64(n)` is exact below `2 ^ 53` in magnitude. -/
theorem float64OfInt_of_lt (n : Int) (h : n.natAbs < 2 ^ 53) : float64OfInt n = n := by
  unfold float64OfInt
  rw [if_pos h]

/-- The float64 quotient at given operands, from its significand and its
exponent. -/
theorem divFloat64_eval (x y m e : Int) (hx : x ≠ 0) (hy : y ≠ 0)
    (hm : x.sign * y.sign * (significand x.natAbs y.natAbs : Int) = m)
    (he : binaryExponent x.natAbs y.natAbs - 52 = e) :
    divFloat64 x y = (m : ℚ) * (2 : ℚ) ^ e := by
  simp [divFloat64, hx, hy, hm, he]

theorem divFloat64_one_one : divFloat64 1 1 = 1 := by
  rw [divFloat64_eval 1 1 4503599627370496 (-52) (by decide) (by decide) (by decide)
    (by decide)]
  norm_num

theorem divFloat64_50_2 : divFloat64 50 2 = 25 := by
  rw [divFloat64_eval 50 2 7036874417766400 (-48) (by decide) (by decide) (by decide)
    (by decide)]
  norm_num

/-- The view of a record of one event: a span of 0, one active minute, and
the average 1. -/
theorem dailyStat_single (d : String) (t : Int) :
    dailyStat { Date := d, Count := 1, StartTime := t, EndTime := t } =
      { Date := d, TotalKeystrokes := 1, AvgPerMinute := 1, ActiveMinutes := 1 } := by
  have h0 : wrapInt64 0 = 0 := by decide
  have h1 : float64OfInt 1 = 1 := by decide
  simp [dailyStat, h0, h1, divFloat64_one_one]

/-- The active minutes of a record, from its span `wrapInt64 (EndTime -
StartTime)` in `int64`: the quotient of the span by 60 rounded toward zero,
and 1 when that is 0.  It is `max 1 (floor (span / 60))` on a span that is
not negative. -/
theorem dailyStat_activeMinutes (data : KeystrokeData) :
    (dailyStat data).ActiveMinutes =
      if 0 ≤ wrapInt64 (data.EndTime - data.StartTime) then
        max 1 (wrapInt64 (data.EndTime - data.StartTime) / 60)
      else if -60 < wrapInt64 (data.EndTime - data.StartTime) then 1
      else -(-wrapInt64 (data.EndTime - data.StartTime) / 60) := by
  simp only [dailyStat]
  generalize wrapInt64 (data.EndTime - data.StartTime) = span
  by_cases hs : 0 ≤ span
  · have hq : 0 ≤ span / 60 := Int.ediv_nonneg hs (by decide)
    rw [Int.tdiv_eq_ediv hs (by decide : (0 : Int) ≤ 60)]
    simp only [hs, if_true]
    split_ifs with h0
    · rw [h0]
      rfl
    · omega
  · have hneg : span = -(-span) := by omega
    have hpos : 0 ≤ -span := by omega
    have htdiv : Int.tdiv span 60 = -(-span / 60) := by
      rw [hneg, Int.neg_tdiv, Int.tdiv_eq_ediv hpos (by decide : (0 : Int) ≤ 60)]
      simp
    rw [htdiv]
    simp only [hs, if_false]
    split_ifs with h0 h1 h1 <;> omega

/-- The guard of `getDailyStats`: the divisor of the average is never zero. -/
theorem dailyStat_activeMinutes_ne_zero (data : KeystrokeData) :
    (dailyStat data).ActiveMinutes ≠ 0 := by
  simp only [dailyStat]
  split_ifs with h0
  · decide
  · exact h0

/-- C5, amended: `getDailyStats` returns exactly one entry per entry of the
store: its result is a rearrangement of a list `views` that matches the
entries of the store one to one.  The entry matched with a record has the
record's date and `total_keystrokes` equal to its count.  Its
`active_minutes` is not zero: with `span` the `int64` difference of the last
and the first event time, it is `max(1, floor(span / 60))` when `span` is not
negative, 1 when `-60 < span < 0`, and `-floor(-span / 60)` below (the
quotient rounded toward zero); `span` is the exact difference, and
`active_minutes` is `max(1, floor((lastEventTime - firstEventTime) / 60))`,
when the last event time is not before the first and the difference is below
`2 ^ 63`.  Its `avg_per_minute` is the `float64` quotient of the count by
`active_minutes`, the `float64` nearest to the exact quotient of the two
converted to `float64`: it is within one part in `2 ^ 53` of
`count / active_minutes` when both are below `2 ^ 53` in magnitude, and it is
`count / active_minutes` when `active_minutes` divides a count below `2 ^ 53`
in magnitude. -/
theorem getDailyStats_entries (kt : KeyTracker) :
    ∃ views : List DailyStats, (getDailyStats kt).Perm views ∧
      List.Forall₂
        (fun (e : String × KeystrokeData) (s : DailyStats) =>
          s.Date = e.2.Date ∧ s.TotalKeystrokes = e.2.Count ∧
          s.ActiveMinutes ≠ 0 ∧
          (s.ActiveMinutes =
            if 0 ≤ wrapInt64 (e.2.EndTime - e.2.StartTime) then
              max 1 (wrapInt64 (e.2.EndTime - e.2.StartTime) / 60)
            else if -60 < wrapInt64 (e.2.EndTime - e.2.StartTime) then 1
            else -(-wrapInt64 (e.2.EndTime - e.2.StartTime) / 60)) ∧
          (e.2.StartTime ≤ e.2.EndTime →
            e.2.EndTime - e.2.StartTime < 9223372036854775808 →
            s.ActiveMinutes = max 1 ((e.2.EndTime - e.2.StartTime) / 60)) ∧
          s.AvgPerMinute =
            divFloat64 (float64OfInt e.2.Count) (float64OfInt s.ActiveMinutes) ∧
          (e.2.Count.natAbs < 2 ^ 53 → s.ActiveMinutes.natAbs < 2 ^ 53 →
            |s.AvgPerMinute - (e.2.Count : ℚ) / (s.ActiveMinutes : ℚ)| ≤
              |(e.2.Count : ℚ) / (s.ActiveMinutes : ℚ)| / 2 ^ 53) ∧
          (s.ActiveMinutes ∣ e.2.Count → e.2.Count.natAbs < 2 ^ 53 →
            s.AvgPerMinute = (e.2.Count : ℚ) / (s.ActiveMinutes : ℚ)))
        kt.dailyData views := by
  refine ⟨kt.dailyData.map (fun e => dailyStat e.2), getDailyStats_perm kt, ?_⟩
  rw [List.forall₂_map_right_iff, List.forall₂_same]
  intro e _
  have havg : (dailyStat e.2).AvgPerMinute =
      divFloat64 (float64OfInt e.2.Count) (float64OfInt (dailyStat e.2).ActiveMinutes) := rfl
  refine ⟨rfl, rfl, dailyStat_activeMinutes_ne_zero e.2, dailyStat_activeMinutes e.2,
    fun hle hlt => ?_, havg, fun hc ha => ?_, fun hdvd hc => ?_⟩
  · have hw : wrapInt64 (e.2.EndTime - e.2.StartTime) = e.2.EndTime - e.2.StartTime :=
      wrapInt64_of_range _ (by omega) hlt
    have hnn : 0 ≤ e.2.EndTime - e.2.StartTime := by omega
    rw [dailyStat_activeMinutes, hw]
    simp only [hnn, if_true]
  · rw [havg, float64OfInt_of_lt _ hc, float64OfInt_of_lt _ ha]
    exact divFloat64_err _ _
  · have hne := dailyStat_activeMinutes_ne_zero e.2
    by_cases h0 : e.2.Count = 0
    · rw [havg, h0]
      simp [divFloat64, float64OfInt]
    · have ha : (dailyStat e.2).ActiveMinutes.natAbs < 2 ^ 53 :=
        lt_of_le_of_lt
          (Nat.le_of_dvd (Int.natAbs_pos.mpr h0) (Int.natAbs_dvd_natAbs.mpr hdvd)) hc
      rw [havg, float64OfInt_of_lt _ hc, float64OfInt_of_lt _ ha]
      exact divFloat64_exact _ _ hne hdvd hc

/-- C5 as stated fails, in three ways.  The store reached from the empty one
by the readings 1704067400 then 1704067200 of 2024-01-01 holds a record with
a span of -200 seconds; its entry has `active_minutes = -3`, whereas
`max(1, floor(-200 / 60)) = 1`.  The store reached by the readings 1704067200
then 1704067800 holds a record with count 2 and a span of 600 seconds; its
entry has `active_minutes = 10` and `avg_per_minute` the `float64`
`3602879701896397 / 2 ^ 54`, which is not the exact quotient `2 / 10`.  A
record with first event time -1 and last event time 9223372036854775807 has
a span of `2 ^ 63` seconds, which is `-2 ^ 63` in `int64`; its entry has
`active_minutes = -153722867280912930`, whereas
`max(1, floor(2 ^ 63 / 60)) = 153722867280912930`. -/
theorem getDailyStats_entries_counterexample :
    (recordAll utcDay KeyTracker.empty [1704067400, 1704067200] =
      some { dailyData := [("2024-01-01",
               { Date := "2024-01-01", Count := 2, StartTime := 1704067400,
                 EndTime := 1704067200 })],
             lastKeytime := some 1704067200 } ∧
     (getDailyStats
       { dailyData := [("2024-01-01",
           { Date := "2024-01-01", Count := 2, StartTime := 1704067400,
             EndTime := 1704067200 })],
         lastKeytime := some 1704067200 }).map (fun s => s.ActiveMinutes) = [-3] ∧
     max 1 (((1704067200 : Int) - 1704067400) / 60) = 1) ∧
    (recordAll utcDay KeyTracker.empty [1704067200, 1704067800] =
      some { dailyData := [("2024-01-01",
               { Date := "2024-01-01", Count := 2, StartTime := 1704067200,
                 EndTime := 1704067800 })],
             lastKeytime := some 1704067800 } ∧
     (getDailyStats
       { dailyData := [("2024-01-01",
           { Date := "2024-01-01", Count := 2, StartTime := 1704067200,
             EndTime := 1704067800 })],
         lastKeytime := some 1704067800 }).map
         (fun s => (s.TotalKeystrokes, s.ActiveMinutes, s.AvgPerMinute)) =
       [(2, 10, 3602879701896397 / 18014398509481984)] ∧
     (3602879701896397 / 18014398509481984 : ℚ) ≠ 2 / 10) ∧
    ((getDailyStats
       { dailyData := [("2024-01-01",
           { Date := "2024-01-01", Count := 2, StartTime := -1,
             EndTime := 9223372036854775807 })],
         lastKeytime := none }).map (fun s => s.ActiveMinutes) =
       [-153722867280912930] ∧
     max 1 (((9223372036854775807 : Int) - (-1)) / 60) = 153722867280912930) := by
  refine ⟨⟨by decide, by decide, by decide⟩, ⟨by decide, ?_, by norm_num⟩,
    ⟨by decide, by decide⟩⟩
  have hg : getDailyStats
      { dailyData := [("2024-01-01",
          { Date := "2024-01-01", Count := 2, StartTime := 1704067200,
            EndTime := 1704067800 })],
        lastKeytime := some 1704067800 } =
      [dailyStat { Date := "2024-01-01", Count := 2, StartTime := 1704067200,
                   EndTime := 1704067800 }] := rfl
  have hmin : Int.tdiv (wrapInt64 (1704067800 - 1704067200)) 60 = 10 := by decide
  have h2 : float64OfInt 2 = 2 := by decide
  have h10 : float64OfInt 10 = 10 := by decide
  have hne : ¬ (10 : Int) = 0 := by decide
  have hdiv : divFloat64 2 10 = 3602879701896397 / 18014398509481984 := by
    rw [divFloat64_eval 2 10 7205759403792794 (-55) (by decide) (by decide) (by decide)
      (by decide)]
    norm_num
  rw [hg]
  simp only [List.map, dailyStat, hmin, hne, if_false, h2, h10, hdiv]

/-! ## Single events and short spans -/

/-- C7: after exactly one `recordKeystroke` call with reading `t` on a store
that did not hold the day of `t`, the call having succeeded, the record of
that day has count 1 and `getDailyStats` holds for it the entry with
`total_keystrokes = 1`, `active_minutes = 1` and `avg_per_minute = 1`, the
raw count; when no other record carries that date, it is the only entry of
that date. -/
theorem getDailyStats_single_event (day : Int → String) (kt : KeyTracker) (t : Int)
    (habs : kt.dailyData.get (day t) = none) :
    ∃ kt' r, recordKeystroke day kt t = some kt' ∧
      kt'.dailyData.get (day t) = some r ∧ r.Count = 1 ∧
      ({ Date := day t, TotalKeystrokes := 1, AvgPerMinute := 1, ActiveMinutes := 1 }
        : DailyStats) ∈ getDailyStats kt' ∧
      ((∀ e ∈ kt.dailyData, e.2.Date ≠ day t) →
        ∀ s ∈ getDailyStats kt', s.Date = day t →
          s = { Date := day t, TotalKeystrokes := 1, AvgPerMinute := 1,
                ActiveMinutes := 1 }) := by
  have hstat : dailyStat { Date := day t, Count := 1, StartTime := t, EndTime := t } =
      { Date := day t, TotalKeystrokes := 1, AvgPerMinute := 1, ActiveMinutes := 1 } :=
    dailyStat_single (day t) t
  refine ⟨_, { Date := day t, Count := 1, StartTime := t, EndTime := t },
    recordKeystroke_eq day kt t, ?_, rfl, ?_, ?_⟩
  · simp [habs, DailyData.get_set_self]
  · rw [mem_getDailyStats]
    refine ⟨(day t, { Date := day t, Count := 1, StartTime := t, EndTime := t }), ?_, hstat⟩
    simp only [habs]
    exact DailyData.mem_of_get (DailyData.get_set_self _ _ _)
  · intro hother s hs hdate
    rw [mem_getDailyStats] at hs
    obtain ⟨e, he, rfl⟩ := hs
    simp only [habs] at he
    rcases DailyData.mem_set he with h | h
    · exact absurd hdate (hother e h)
    · rw [h]
      exact hstat

/-- C7 at a concrete input: the first event of 2024-01-02 on a store that
holds 2024-01-01. -/
theorem getDailyStats_single_event_witness :
    DailyData.get [("2024-01-01",
        { Date := "2024-01-01", Count := 50, StartTime := 1704067200,
          EndTime := 1704067325 })] (utcDay 1704153600) = none ∧
    ∃ kt' r, recordKeystroke utcDay
        { dailyData := [("2024-01-01",
            { Date := "2024-01-01", Count := 50, StartTime := 1704067200,
              EndTime := 1704067325 })],
          lastKeytime := some 1704067325 } 1704153600 = some kt' ∧
      kt'.dailyData.get (utcDay 1704153600) = some r ∧ r.Count = 1 ∧
      ({ Date := utcDay 1704153600, TotalKeystrokes := 1, AvgPerMinute := 1,
         ActiveMinutes := 1 } : DailyStats) ∈ getDailyStats kt' ∧
      ((∀ e ∈ ([("2024-01-01",
            { Date := "2024-01-01", Count := 50, StartTime := 1704067200,
              EndTime := 1704067325 })] : DailyData), e.2.Date ≠ utcDay 1704153600) →
        ∀ s ∈ getDailyStats kt', s.Date = utcDay 1704153600 →
          s = { Date := utcDay 1704153600, TotalKeystrokes := 1, AvgPerMinute := 1,
                ActiveMinutes := 1 }) :=
  ⟨by decide,
   getDailyStats_single_event utcDay
     { dailyData := [("2024-01-01",
         { Date := "2024-01-01", Count := 50, StartTime := 1704067200,
           EndTime := 1704067325 })],
       lastKeytime := some 1704067325 } 1704153600 (by decide)⟩

/-- C8: for every store and every record of it with count 50 and a span of
125 seconds between first and last event time, `getDailyStats` holds for that
record an entry with `total_keystrokes = 50`, `active_minutes = 2` and
`avg_per_minute = 25`. -/
theorem getDailyStats_span_125 (kt : KeyTracker) (e : String × KeystrokeData)
    (he : e ∈ kt.dailyData) (hcount : e.2.Count = 50)
    (hspan : e.2.EndTime - e.2.StartTime = 125) :
    ∃ s ∈ getDailyStats kt, s.Date = e.2.Date ∧ s.TotalKeystrokes = 50 ∧
      s.ActiveMinutes = 2 ∧ s.AvgPerMinute = 25 := by
  refine ⟨dailyStat e.2, mem_getDailyStats.mpr ⟨e, he, rfl⟩, rfl, hcount, ?_, ?_⟩
  · simp only [dailyStat, hspan]
    decide
  · have hmin : Int.tdiv (wrapInt64 125) 60 = 2 := by decide
    have h50 : float64OfInt 50 = 50 := by decide
    have h2 : float64OfInt 2 = 2 := by decide
    have hne : ¬ (2 : Int) = 0 := by decide
    simp only [dailyStat, hspan, hcount, hmin, hne, if_false, h50, h2]
    exact divFloat64_50_2

/-- C8 at a concrete input: 50 events of 2024-01-01 over 125 seconds. -/
theorem getDailyStats_span_125_witness :
    ∃ s ∈ getDailyStats
        { dailyData := [("2024-01-01",
            { Date := "2024-01-01", Count := 50, StartTime := 1704067200,
              EndTime := 1704067325 })],
          lastKeytime := some 1704067325 },
      s.Date = "2024-01-01" ∧ s.TotalKeystrokes = 50 ∧
      s.ActiveMinutes = 2 ∧ s.AvgPerMinute = 25 :=
  getDailyStats_span_125 _
    ("2024-01-01",
      { Date := "2024-01-01", Count := 50, StartTime := 1704067200,
        EndTime := 1704067325 })
    (by decide) (by decide) (by decide)

/-! ## The summary of the query handlers -/

theorem wrapInt64_add_wrapInt64 (a b : Int) :
    wrapInt64 (wrapInt64 a + b) = wrapInt64 (a + b) := by
  unfold wrapInt64
  omega

theorem wrapInt64_idem (a : Int) : wrapInt64 (wrapInt64 a) = wrapInt64 a := by
  unfold wrapInt64
  omega

/-- The loop leaves in `totalKeys` the sum of the totals, wrapped around. -/
theorem foldl_totals_totalKeys (todayDate : String) :
    ∀ (l : List DailyStats) (acc : Totals), wrapInt64 acc.totalKeys = acc.totalKeys →
      (l.foldl
        (fun acc stat =>
          let totalKeys := wrapInt64 (acc.totalKeys + stat.TotalKeystrokes)
          if stat.Date = todayDate then
            { totalToday := stat.TotalKeystrokes
              totalKeys := totalKeys
              avgToday := stat.AvgPerMinute }
          else { acc with totalKeys := totalKeys }) acc).totalKeys =
        wrapInt64 (acc.totalKeys + (l.map (fun s => s.TotalKeystrokes)).sum) := by
  intro l
  induction l with
  | nil => intro acc hacc; simpa using hacc.symm
  | cons s rest ih =>
    intro acc _
    rw [List.foldl_cons]
    by_cases h : s.Date = todayDate
    · simp only [h, if_true, List.map_cons, List.sum_cons]
      rw [ih _ (wrapInt64_idem _)]
      simp only [wrapInt64_add_wrapInt64, add_assoc]
    · simp only [h, if_false, List.map_cons, List.sum_cons]
      rw [ih _ (wrapInt64_idem _)]
      simp only [wrapInt64_add_wrapInt64, add_assoc]

/-- Entries of other dates leave `totalToday` and `avgToday` as they are. -/
theorem foldl_totals_no_today (todayDate : String) :
    ∀ (l : List DailyStats) (acc : Totals), (∀ s ∈ l, s.Date ≠ todayDate) →
      (l.foldl
        (fun acc stat =>
          let totalKeys := wrapInt64 (acc.totalKeys + stat.TotalKeystrokes)
          if stat.Date = todayDate then
            { totalToday := stat.TotalKeystrokes
              totalKeys := totalKeys
              avgToday := stat.AvgPerMinute }
          else { acc with totalKeys := totalKeys }) acc).totalToday = acc.totalToday ∧
      (l.foldl
        (fun acc stat =>
          let totalKeys := wrapInt64 (acc.totalKeys + stat.TotalKeystrokes)
          if stat.Date = todayDate then
            { totalToday := stat.TotalKeystrokes
              totalKeys := totalKeys
              avgToday := stat.AvgPerMinute }
          else { acc with totalKeys := totalKeys }) acc).avgToday = acc.avgToday := by
  intro l
  induction l with
  | nil => intro acc _; exact ⟨rfl, rfl⟩
  | cons s rest ih =>
    intro acc hl
    have hs : s.Date ≠ todayDate := hl s (List.mem_cons_self _ _)
    rw [List.foldl_cons]
    simp only [hs, if_false]
    exact ih _ (fun s' hs' => hl s' (List.mem_cons_of_mem _ hs'))

/-- When some entry has today's date, the loop ends with the total and the
average of an entry of that date (the last one in the sequence). -/
theorem foldl_totals_today (todayDate : String) :
    ∀ (l : List DailyStats) (acc : Totals), (∃ s ∈ l, s.Date = todayDate) →
      ∃ s ∈ l, s.Date = todayDate ∧
        (l.foldl
          (fun acc stat =>
            let totalKeys := wrapInt64 (acc.totalKeys + stat.TotalKeystrokes)
            if stat.Date = todayDate then
              { totalToday := stat.TotalKeystrokes
                totalKeys := totalKeys
                avgToday := stat.AvgPerMinute }
            else { acc with totalKeys := totalKeys }) acc).totalToday
          = s.TotalKeystrokes ∧
        (l.foldl
          (fun acc stat =>
            let totalKeys := wrapInt64 (acc.totalKeys + stat.TotalKeystrokes)
            if stat.Date = todayDate then
              { totalToday := stat.TotalKeystrokes
                totalKeys := totalKeys
                avgToday := stat.AvgPerMinute }
            else { acc with totalKeys := totalKeys }) acc).avgToday
          = s.AvgPerMinute := by
  intro l
  induction l with
  | nil => intro acc hex; obtain ⟨s, hs, _⟩ := hex; simp at hs
  | cons s rest ih =>
    intro acc hex
    rw [List.foldl_cons]
    by_cases hrest : ∃ s' ∈ rest, s'.Date = todayDate
    · obtain ⟨s', hs', hd', h₁, h₂⟩ := ih _ hrest
      exact ⟨s', List.mem_cons_of_mem _ hs', hd', h₁, h₂⟩
    · have hnone : ∀ s' ∈ rest, s'.Date ≠ todayDate :=
        fun s' hs' hd => hrest ⟨s', hs', hd⟩
      obtain ⟨s₀, hs₀, hd₀⟩ := hex
      have hsd : s.Date = todayDate := by
        rcases List.mem_cons.mp hs₀ with h | h
        · exact h ▸ hd₀
        · exact absurd hd₀ (hnone s₀ h)
      obtain ⟨h₁, h₂⟩ := foldl_totals_no_today todayDate rest
        (if s.Date = todayDate then
          { totalToday := s.TotalKeystrokes
            totalKeys := wrapInt64 (acc.totalKeys + s.TotalKeystrokes)
            avgToday := s.AvgPerMinute }
        else { acc with totalKeys := wrapInt64 (acc.totalKeys + s.TotalKeystrokes) }) hnone
      refine ⟨s, List.mem_cons_self _ _, hsd, ?_, ?_⟩
      · rw [h₁]
        simp [hsd]
      · rw [h₂]
        simp [hsd]

theorem sum_totalKeystrokes_getDailyStats (kt : KeyTracker) :
    ((getDailyStats kt).map (fun s => s.TotalKeystrokes)).sum =
      (kt.dailyData.map (fun e => e.2.Count)).sum := by
  rw [((getDailyStats_perm kt).map (fun s => s.TotalKeystrokes)).sum_eq, List.map_map]
  rfl

/-- C9, amended: for every store and every current date string `today`, the
response of the `/api/all-stats` handler carries the result of
`getDailyStats`, has `total_days` equal to the number of entries of the store
(the number of distinct days, the keys of a map being distinct), `total_keys`
equal to the sum of the counts of all days wrapped around in `int`, which is
the sum itself when the sum is in the range of `int`, and `total_today`,
`avg_today` equal to the `total_keystrokes` and `avg_per_minute` of an entry
whose date is `today` (of the entry of that date, when there is only one), or
to 0 and 0 when no entry has that date; the `/` handler renders the same
values. -/
theorem allStatsHandler_summary (kt : KeyTracker) (today : String) :
    (allStatsHandler kt today).Stats = getDailyStats kt ∧
    (allStatsHandler kt today).TotalDays = (kt.dailyData.length : Int) ∧
    ((kt.dailyData.map Prod.fst).Nodup →
      (allStatsHandler kt today).TotalDays =
        ((kt.dailyData.map Prod.fst).toFinset.card : Int)) ∧
    (allStatsHandler kt today).TotalKeys =
      wrapInt64 (kt.dailyData.map (fun e => e.2.Count)).sum ∧
    (-9223372036854775808 ≤ (kt.dailyData.map (fun e => e.2.Count)).sum →
      (kt.dailyData.map (fun e => e.2.Count)).sum < 9223372036854775808 →
      (allStatsHandler kt today).TotalKeys = (kt.dailyData.map (fun e => e.2.Count)).sum) ∧
    ((∀ s ∈ getDailyStats kt, s.Date ≠ today) →
      (allStatsHandler kt today).TotalToday = 0 ∧
      (allStatsHandler kt today).AvgToday = 0) ∧
    ((∃ s ∈ getDailyStats kt, s.Date = today) →
      ∃ s ∈ getDailyStats kt, s.Date = today ∧
        (allStatsHandler kt today).TotalToday = s.TotalKeystrokes ∧
        (allStatsHandler kt today).AvgToday = s.AvgPerMinute) ∧
    (∀ s ∈ getDailyStats kt, s.Date = today →
      (∀ s' ∈ getDailyStats kt, s'.Date = today → s' = s) →
      (allStatsHandler kt today).TotalToday = s.TotalKeystrokes ∧
      (allStatsHandler kt today).AvgToday = s.AvgPerMinute) ∧
    (indexHandler kt today).InitialStatsForTable = (allStatsHandler kt today).Stats ∧
    (indexHandler kt today).TotalDays = (allStatsHandler kt today).TotalDays ∧
    (indexHandler kt today).TotalKeys = (allStatsHandler kt today).TotalKeys ∧
    (indexHandler kt today).TotalToday = (allStatsHandler kt today).TotalToday ∧
    (indexHandler kt today).AvgToday = (allStatsHandler kt today).AvgToday := by
  have hlen : ((getDailyStats kt).length : Int) = (kt.dailyData.length : Int) := by
    rw [(getDailyStats_perm kt).length_eq, List.length_map]
  have hkeys : (allStatsHandler kt today).TotalKeys =
      wrapInt64 (kt.dailyData.map (fun e => e.2.Count)).sum := by
    have h := foldl_totals_totalKeys today (getDailyStats kt)
      { totalToday := 0, totalKeys := 0, avgToday := 0 } (by decide)
    rw [sum_totalKeystrokes_getDailyStats, zero_add] at h
    exact h
  refine ⟨rfl, hlen, fun hnd => ?_, hkeys, fun hlo hhi => ?_, fun hnone => ?_,
    fun hex => ?_, fun s hs hd huniq => ?_, rfl, rfl, rfl, rfl, rfl⟩
  · rw [List.toFinset_card_of_nodup hnd, List.length_map]
    exact hlen
  · rw [hkeys, wrapInt64_of_range _ hlo hhi]
  · exact foldl_totals_no_today today (getDailyStats kt) _ hnone
  · exact foldl_totals_today today (getDailyStats kt) _ hex
  · obtain ⟨s', hs', hd', h₁, h₂⟩ :=
      foldl_totals_today today (getDailyStats kt)
        { totalToday := 0, totalKeys := 0, avgToday := 0 } ⟨s, hs, hd⟩
    rw [← huniq s' hs' hd']
    exact ⟨h₁, h₂⟩

/-- C9 at a concrete input: a store with 50 events on 2024-01-01 and one on
2024-01-02, queried on 2024-01-02. -/
theorem allStatsHandler_summary_witness :
    (allStatsHandler
      { dailyData := [("2024-01-02",
          { Date := "2024-01-02", Count := 1, StartTime := 1704153600,
            EndTime := 1704153600 }),
         ("2024-01-01",
          { Date := "2024-01-01", Count := 50, StartTime := 1704067200,
            EndTime := 1704067325 })],
        lastKeytime := some 1704153600 } "2024-01-02").TotalDays = 2 ∧
    (allStatsHandler
      { dailyData := [("2024-01-02",
          { Date := "2024-01-02", Count := 1, StartTime := 1704153600,
            EndTime := 1704153600 }),
         ("2024-01-01",
          { Date := "2024-01-01", Count := 50, StartTime := 1704067200,
            EndTime := 1704067325 })],
        lastKeytime := some 1704153600 } "2024-01-02").TotalKeys = 51 ∧
    (allStatsHandler
      { dailyData := [("2024-01-02",
          { Date := "2024-01-02", Count := 1, StartTime := 1704153600,
            EndTime := 1704153600 }),
         ("2024-01-01",
          { Date := "2024-01-01", Count := 50, StartTime := 1704067200,
            EndTime := 1704067325 })],
        lastKeytime := some 1704153600 } "2024-01-02").TotalToday = 1 ∧
    (allStatsHandler
      { dailyData := [("2024-01-02",
          { Date := "2024-01-02", Count := 1, StartTime := 1704153600,
            EndTime := 1704153600 }),
         ("2024-01-01",
          { Date := "2024-01-01", Count := 50, StartTime := 1704067200,
            EndTime := 1704067325 })],
        lastKeytime := some 1704153600 } "2024-01-02").AvgToday = 1 := by
  obtain ⟨_, hdays, _, hkeys, _, _, _, htoday, _⟩ :=
    allStatsHandler_summary
      { dailyData := [("2024-01-02",
          { Date := "2024-01-02", Count := 1, StartTime := 1704153600,
            EndTime := 1704153600 }),
         ("2024-01-01",
          { Date := "2024-01-01", Count := 50, StartTime := 1704067200,
            EndTime := 1704067325 })],
        lastKeytime := some 1704153600 } "2024-01-02"
  refine ⟨hdays, hkeys.trans (by decide), ?_⟩
  refine htoday
    { Date := "2024-01-02", TotalKeystrokes := 1, AvgPerMinute := 1, ActiveMinutes := 1 }
    ?_ rfl ?_
  · rw [mem_getDailyStats]
    exact ⟨("2024-01-02",
      { Date := "2024-01-02", Count := 1, StartTime := 1704153600,
        EndTime := 1704153600 }), by decide, dailyStat_single _ _⟩
  · intro s' hs' hd'
    rw [mem_getDailyStats] at hs'
    obtain ⟨e, he, rfl⟩ := hs'
    simp only [List.mem_cons, List.mem_singleton, List.not_mem_nil, or_false] at he
    rcases he with rfl | rfl
    · exact dailyStat_single _ _
    · exact absurd hd' (by decide)

/-- C9 as stated fails: for a store with two days of 4611686018427387904
events each, the handler's `total_keys` is -9223372036854775808, not the sum
9223372036854775808 of the counts. -/
theorem allStatsHandler_wrap_counterexample :
    (allStatsHandler
      { dailyData := [("2024-01-01",
          { Date := "2024-01-01", Count := 4611686018427387904, StartTime := 1704067200,
            EndTime := 1704067325 }),
         ("2024-01-02",
          { Date := "2024-01-02", Count := 4611686018427387904, StartTime := 1704153600,
            EndTime := 1704153600 })],
        lastKeytime := none } "2024-01-02").TotalKeys = -9223372036854775808 ∧
    (([("2024-01-01",
          { Date := "2024-01-01", Count := 4611686018427387904, StartTime := 1704067200,
            EndTime := 1704067325 }),
        ("2024-01-02",
          { Date := "2024-01-02", Count := 4611686018427387904, StartTime := 1704153600,
            EndTime := 1704153600 })] : DailyData).map (fun e => e.2.Count)).sum =
      9223372036854775808 := by
  constructor <;> decide

/-! ## The frame of `recordKeystroke` -/

/-- C10, amended: a `recordKeystroke` call with reading `t` succeeds and
changes only the record of the calendar day of `t`: the record of every other
day is the same before and after, every day present before is present after,
and when the day of `t` was present its record keeps its date and its first
event time while its count becomes the count plus 1 wrapped around in `int`:
it grows by exactly 1 when it is in the range of `int` and below its maximum
`2 ^ 63 - 1`. -/
theorem recordKeystroke64_frame (day : Int → String) (kt : KeyTracker) (t : Int) :
    ∃ kt', recordKeystroke64 day kt t = some kt' ∧
      (∀ k, k ≠ day t → kt'.dailyData.get k = kt.dailyData.get k) ∧
      (∀ k, (kt.dailyData.get k).isSome → (kt'.dailyData.get k).isSome) ∧
      (∀ r, kt.dailyData.get (day t) = some r →
        ∃ r', kt'.dailyData.get (day t) = some r' ∧
          r'.Date = r.Date ∧ r'.StartTime = r.StartTime ∧
          r'.Count = wrapInt64 (r.Count + 1) ∧
          (-9223372036854775808 ≤ r.Count → r.Count < 9223372036854775807 →
            r'.Count = r.Count + 1)) := by
  refine ⟨_, recordKeystroke64_eq day kt t, fun k hk => DailyData.get_set_ne _ _ hk,
    fun k hk => ?_, fun r hr => ?_⟩
  · by_cases h : k = day t
    · subst h
      simp [DailyData.get_set_self]
    · simp only [DailyData.get_set_ne _ _ h]
      exact hk
  · refine ⟨{ r with Count := wrapInt64 (r.Count + 1), EndTime := t }, ?_, rfl, rfl, rfl,
      fun hlo hhi => wrapInt64_of_range _ (by omega) (by omega)⟩
    simp [hr, DailyData.get_set_self]

/-- C10, amended, at a concrete input: an event of 2024-01-02 on a store that
holds that day and 2024-01-01. -/
theorem recordKeystroke64_frame_witness :
    ∃ kt', recordKeystroke64 utcDay
        { dailyData := [("2024-01-01",
            { Date := "2024-01-01", Count := 50, StartTime := 1704067200,
              EndTime := 1704067325 }),
           ("2024-01-02",
            { Date := "2024-01-02", Count := 3, StartTime := 1704153600,
              EndTime := 1704153700 })],
          lastKeytime := some 1704153700 } 1704153760 = some kt' ∧
      kt'.dailyData.get "2024-01-01" =
        some { Date := "2024-01-01", Count := 50, StartTime := 1704067200,
               EndTime := 1704067325 } ∧
      ∃ r', kt'.dailyData.get "2024-01-02" = some r' ∧
        r'.Date = "2024-01-02" ∧ r'.StartTime = 1704153600 ∧ r'.Count = 3 + 1 := by
  obtain ⟨kt', hrun, hother, _, hday⟩ :=
    recordKeystroke64_frame utcDay
      { dailyData := [("2024-01-01",
          { Date := "2024-01-01", Count := 50, StartTime := 1704067200,
            EndTime := 1704067325 }),
         ("2024-01-02",
          { Date := "2024-01-02", Count := 3, StartTime := 1704153600,
            EndTime := 1704153700 })],
        lastKeytime := some 1704153700 } 1704153760
  obtain ⟨r', hget, hdate, hstart, _, hcount⟩ :=
    hday { Date := "2024-01-02", Count := 3, StartTime := 1704153600,
           EndTime := 1704153700 } (by decide)
  exact ⟨kt', hrun, (hother "2024-01-01" (by decide)).trans (by decide),
    r', hget, hdate, hstart, hcount (by decide) (by decide)⟩

/-- C10 as stated fails: on a store that holds 2024-01-01 and a record of
2024-01-02 with the count 9223372036854775807, the largest `int`, a
`recordKeystroke` call on 2024-01-02 leaves that record with the count
-9223372036854775808: the count does not grow by 1, it falls by
`2 ^ 64 - 1`. -/
theorem recordKeystroke64_frame_counterexample :
    recordKeystroke64 utcDay
      { dailyData := [("2024-01-01",
          { Date := "2024-01-01", Count := 50, StartTime := 1704067200,
            EndTime := 1704067325 }),
         ("2024-01-02",
          { Date := "2024-01-02", Count := 9223372036854775807, StartTime := 1704153600,
            EndTime := 1704153700 })],
        lastKeytime := some 1704153700 } 1704153760 =
      some { dailyData := [("2024-01-01",
               { Date := "2024-01-01", Count := 50, StartTime := 1704067200,
                 EndTime := 1704067325 }),
              ("2024-01-02",
               { Date := "2024-01-02", Count := -9223372036854775808,
                 StartTime := 1704153600, EndTime := 1704153760 })],
             lastKeytime := some 1704153760 } ∧
    (-9223372036854775808 : Int) - 9223372036854775807 = -18446744073709551615 ∧
    (-9223372036854775808 : Int) ≠ 9223372036854775807 + 1 := by
  refine ⟨by decide, by decide, by decide⟩


/-! ## The text of numbers -/

theorem toNat_ofNat_digit (d : Nat) (hd : d < 10) : (Char.ofNat (48 + d)).toNat = 48 + d := by
  interval_cases d <;> rfl

theorem isDigit_ofNat_digit (d : Nat) (hd : d < 10) : isDigit (Char.ofNat (48 + d)) = true := by
  interval_cases d <;> rfl

theorem digitsValue_append (ds : List Char) (c : Char) :
    digitsValue (ds ++ [c]) = 10 * digitsValue ds + (c.toNat - 48) := by
  simp [digitsValue, List.foldl_append]

/-- The decimal digits of `n`, given room for them: digits only, at least
one, no leading zero unless `n` is a single `0`, and their value is `n`. -/
theorem decimalDigits_spec :
    ∀ (fuel n : Nat), n < fuel →
      (∀ c ∈ decimalDigits fuel n, isDigit c = true) ∧
      decimalDigits fuel n ≠ [] ∧
      ((decimalDigits fuel n).head? = some '0' → (decimalDigits fuel n).length = 1) ∧
      digitsValue (decimalDigits fuel n) = n := by
  intro fuel
  induction fuel with
  | zero => intro n hn; omega
  | succ fuel ih =>
    intro n hn
    by_cases h10 : n < 10
    · simp only [decimalDigits, h10, if_true]
      refine ⟨?_, by simp, by simp, ?_⟩
      · intro c hc
        rw [List.mem_singleton.mp hc]
        exact isDigit_ofNat_digit n h10
      · simp [digitsValue, toNat_ofNat_digit n h10]
    · simp only [decimalDigits, h10, if_false]
      have hq : n / 10 < fuel := by omega
      have hq0 : n / 10 ≠ 0 := by omega
      obtain ⟨hall, hne, hzero, hval⟩ := ih (n / 10) hq
      have hmod : n % 10 < 10 := Nat.mod_lt _ (by decide)
      refine ⟨?_, by simp, ?_, ?_⟩
      · intro c hc
        rcases List.mem_append.mp hc with h | h
        · exact hall c h
        · rw [List.mem_singleton.mp h]
          exact isDigit_ofNat_digit _ hmod
      · intro hhead
        exfalso
        have hhead' : (decimalDigits fuel (n / 10)).head? = some '0' := by
          cases hds : decimalDigits fuel (n / 10) with
          | nil => exact absurd hds hne
          | cons a as =>
            rw [hds] at hhead
            simpa using hhead
        have hlen := hzero hhead'
        cases hds : decimalDigits fuel (n / 10) with
        | nil => exact absurd hds hne
        | cons a as =>
          rw [hds] at hhead' hlen hval
          have has : as = [] := by simpa using hlen
          subst has
          have ha : a = '0' := by simpa using hhead'
          subst ha
          simp [digitsValue] at hval
          omega
      · rw [digitsValue_append, hval, toNat_ofNat_digit _ hmod]
        omega

theorem span_isDigit_append (ds rest : List Char) (hds : ∀ c ∈ ds, isDigit c = true)
    (hrest : ∀ c cs, rest = c :: cs → isDigit c = false) :
    (ds ++ rest).span isDigit = (ds, rest) := by
  rw [List.span_eq_take_drop, List.takeWhile_append_of_pos hds,
    List.dropWhile_append_of_pos hds]
  cases rest with
  | nil => simp
  | cons c cs =>
    have hc := hrest c cs rfl
    simp [List.takeWhile_cons, List.dropWhile_cons, hc]

/-- The scanner reads back the text of an integer, when a comma or a line
break follows it. -/
theorem scanNumber_formatInt (n : Int) (c : Char) (cs : List Char)
    (hc : c = ',' ∨ c = '\n') :
    scanNumber (formatInt n ++ c :: cs) = some (JSON.number n, c :: cs) := by
  have hcd : isDigit c = false := by rcases hc with h | h <;> subst h <;> rfl
  have hfrac : scanFraction (c :: cs) = some (false, c :: cs) := by
    rcases hc with h | h <;> subst h <;> rfl
  have hexp : scanExponent (c :: cs) = some (false, c :: cs) := by
    rcases hc with h | h <;> subst h <;> rfl
  have hrest : ∀ c' cs', c :: cs = c' :: cs' → isDigit c' = false := by
    intro c' cs' h
    cases h
    exact hcd
  by_cases hneg : n < 0
  · obtain ⟨hall, hne, hzero, hval⟩ :=
      decimalDigits_spec (n.natAbs + 1) n.natAbs (Nat.lt_succ_self _)
    have hspan := span_isDigit_append _ _ hall hrest
    have hlead : ¬ ((decimalDigits (n.natAbs + 1) n.natAbs).head? = some '0' ∧
        1 < (decimalDigits (n.natAbs + 1) n.natAbs).length) := by
      intro h
      have := hzero h.1
      omega
    simp only [formatInt, hneg, if_true, scanNumber, List.cons_append, List.head?_cons,
      decide_True, List.tail_cons, hspan, hne, if_false, hlead, hfrac, hexp]
    simp only [Bool.false_eq_true, or_self, if_false, hval]
    have hn : -(n.natAbs : Int) = n := by omega
    rw [hn]
  · obtain ⟨hall, hne, hzero, hval⟩ :=
      decimalDigits_spec (n.toNat + 1) n.toNat (Nat.lt_succ_self _)
    have hspan := span_isDigit_append _ _ hall hrest
    have hlead : ¬ ((decimalDigits (n.toNat + 1) n.toNat).head? = some '0' ∧
        1 < (decimalDigits (n.toNat + 1) n.toNat).length) := by
      intro h
      have := hzero h.1
      omega
    have hhead : ¬ ((decimalDigits (n.toNat + 1) n.toNat ++ c :: cs).head? = some '-') := by
      cases hds : decimalDigits (n.toNat + 1) n.toNat with
      | nil => exact absurd hds hne
      | cons a as =>
        have ha : isDigit a = true := hall a (by rw [hds]; exact List.mem_cons_self _ _)
        intro h
        simp only [List.cons_append, List.head?_cons, Option.some.injEq] at h
        subst h
        exact absurd ha (by decide)
    simp only [formatInt, hneg, if_false, scanNumber, hhead, decide_False,
      Bool.false_eq_true, hspan, hne, hlead, hfrac, hexp, or_self, hval]
    have hn : (n.toNat : Int) = n := by omega
    rw [hn]

/-! ## The text of strings -/

theorem hex4_hexDigit (n : Nat) (hn : n < 128) :
    hex4 '0' '0' (hexDigit (n / 16)) (hexDigit (n % 16)) = some n := by
  interval_cases n <;> rfl

theorem hex4_separator (n : Nat) (hn : n = 0x2028 ∨ n = 0x2029) :
    hex4 '2' '0' '2' (hexDigit (n % 16)) = some n := by
  rcases hn with h | h <;> subst h <;> rfl

/-- The decoder reads the text the encoder writes for one character as that
character, on the whole width of the text. -/
theorem stringStep_quoteChar (c : Char) (tail : List Char) :
    stringStep (quoteChar c ++ tail) = StringStep.char c (quoteChar c).length := by
  unfold quoteChar
  split_ifs with h1 h2 h3 h4 h5 h6 h7 h8
  · rcases h1 with h | h <;> subst h <;> simp [stringStep, escapeChar]
  · have hc : c = Char.ofNat 8 := by rw [← h2, Char.ofNat_toNat]
    subst hc
    simp [stringStep, escapeChar]
  · have hc : c = Char.ofNat 12 := by rw [← h3, Char.ofNat_toNat]
    subst hc
    simp [stringStep, escapeChar]
  · subst h4
    simp [stringStep, escapeChar]
  · subst h5
    simp [stringStep, escapeChar]
  · subst h6
    simp [stringStep, escapeChar]
  · have hlt : c.toNat < 128 := by
      rcases h7 with h | h | h | h
      · omega
      · subst h; decide
      · subst h; decide
      · subst h; decide
    have hhex := hex4_hexDigit c.toNat hlt
    have hhi : ¬ (0xD800 ≤ c.toNat ∧ c.toNat < 0xDC00) := by omega
    have hlo : ¬ (0xDC00 ≤ c.toNat ∧ c.toNat < 0xE000) := by omega
    simp only [List.cons_append, List.nil_append, stringStep, hhex, hhi, hlo, if_false,
      Char.ofNat_toNat, List.length_cons, List.length_nil]
    simp
  · have hhex := hex4_separator c.toNat h8
    have hhi : ¬ (0xD800 ≤ c.toNat ∧ c.toNat < 0xDC00) := by omega
    have hlo : ¬ (0xDC00 ≤ c.toNat ∧ c.toNat < 0xE000) := by omega
    simp only [List.cons_append, List.nil_append, stringStep, hhex, hhi, hlo, if_false,
      Char.ofNat_toNat, List.length_cons, List.length_nil]
    simp
  · have hq : ¬ c = '"' := fun h => h1 (Or.inl h)
    have hb : ¬ c = '\\' := fun h => h1 (Or.inr h)
    have h32 : ¬ c.toNat < 32 := fun h => h7 (Or.inl h)
    simp [stringStep, hq, hb, h32]

theorem unquoteFrom_skip (xs rest : List Char) :
    unquoteFrom xs.length (xs ++ rest) = unquoteFrom 0 rest := by
  induction xs with
  | nil => rfl
  | cons x xs ih => simpa [unquoteFrom] using ih

theorem quoteChar_ne_nil (c : Char) : quoteChar c ≠ [] := by
  unfold quoteChar
  split_ifs <;> simp

theorem unquoteFrom_quoteChar (c : Char) (tail : List Char) :
    unquoteFrom 0 (quoteChar c ++ tail) =
      (unquoteFrom 0 tail).map (fun p => (c :: p.1, p.2)) := by
  have hstep := stringStep_quoteChar c tail
  cases hq : quoteChar c with
  | nil => exact absurd hq (quoteChar_ne_nil c)
  | cons x xs =>
    rw [hq] at hstep
    rw [List.cons_append, unquoteFrom]
    rw [← List.cons_append, hstep]
    simp only [List.length_cons, Nat.add_sub_cancel]
    rw [unquoteFrom_skip]

/-- The decoder reads back the string literal the encoder writes. -/
theorem unquote_quote (s rest : List Char) :
    unquote (s.flatMap quoteChar ++ '"' :: rest) = some (s, rest) := by
  unfold unquote
  induction s with
  | nil => simp [unquoteFrom, stringStep]
  | cons c s ih =>
    rw [List.flatMap_cons, List.append_assoc, unquoteFrom_quoteChar, ih]
    rfl

/-! ## The text of records and maps -/

theorem skipSpace_replicate (n : Nat) (cs : List Char) :
    skipSpace (List.replicate n ' ' ++ cs) = skipSpace cs := by
  induction n with
  | zero => rfl
  | succ n ih => simpa [List.replicate_succ, skipSpace, isSpace] using ih

theorem skipSpace_newline (depth : Nat) (cs : List Char) :
    skipSpace (newline depth ++ cs) = skipSpace cs := by
  simp [newline, skipSpace, isSpace, skipSpace_replicate]

theorem skipSpace_cons_of_not_space (c : Char) (cs : List Char) (hc : isSpace c = false) :
    skipSpace (c :: cs) = c :: cs := by
  simp [skipSpace, hc]

theorem string_mk_toList (s : String) : String.mk s.toList = s := rfl

/-- The parser reads back the string literal the encoder writes. -/
theorem parseValue_quote (fuel depth : Nat) (s : String) (after : List Char) :
    parseValue (fuel + 1) depth ('"' :: (s.toList.flatMap quoteChar ++ '"' :: after)) =
      some (JSON.string s, after) := by
  rw [parseValue]
  simp [unquote_quote]

/-- The text of an integer starts with a minus sign or a digit. -/
theorem formatInt_head (n : Int) :
    ∃ c cs, formatInt n = c :: cs ∧ (c = '-' ∨ isDigit c = true) := by
  by_cases hneg : n < 0
  · exact ⟨'-', decimalDigits (n.natAbs + 1) n.natAbs, by simp [formatInt, hneg], Or.inl rfl⟩
  · obtain ⟨hall, hne, _, _⟩ := decimalDigits_spec (n.toNat + 1) n.toNat (Nat.lt_succ_self _)
    cases hds : decimalDigits (n.toNat + 1) n.toNat with
    | nil => exact absurd hds hne
    | cons a as =>
      refine ⟨a, as, by simp [formatInt, hneg, hds], Or.inr (hall a ?_)⟩
      rw [hds]
      exact List.mem_cons_self _ _

theorem isDigit_cases (c : Char) (h : isDigit c = true) :
    c ≠ '{' ∧ c ≠ '[' ∧ c ≠ '"' ∧ c ≠ 't' ∧ c ≠ 'f' ∧ c ≠ 'n' ∧ isSpace c = false := by
  simp only [isDigit, decide_eq_true_eq] at h
  refine ⟨?_, ?_, ?_, ?_, ?_, ?_, ?_⟩ <;>
    first
      | (intro hc; subst hc; revert h; decide)
      | (simp only [isSpace, Bool.or_eq_false_iff, decide_eq_false_iff_not]
         refine ⟨⟨⟨?_, ?_⟩, ?_⟩, ?_⟩ <;> (intro hc; subst hc; revert h; decide))

/-- The parser reads back the text of an integer, when a comma or a line
break follows it. -/
theorem parseValue_formatInt (fuel depth : Nat) (n : Int) (c : Char) (cs : List Char)
    (hc : c = ',' ∨ c = '\n') :
    parseValue (fuel + 1) depth (formatInt n ++ c :: cs) = some (JSON.number n, c :: cs) := by
  obtain ⟨a, as, hfmt, ha⟩ := formatInt_head n
  have hscan := scanNumber_formatInt n c cs hc
  rw [hfmt] at hscan ⊢
  rw [List.cons_append, parseValue]
  rw [List.cons_append] at hscan
  have hne : a ≠ '{' ∧ a ≠ '[' ∧ a ≠ '"' ∧ a ≠ 't' ∧ a ≠ 'f' ∧ a ≠ 'n' := by
    rcases ha with h | h
    · subst h; decide
    · obtain ⟨h1, h2, h3, h4, h5, h6, _⟩ := isDigit_cases a h
      exact ⟨h1, h2, h3, h4, h5, h6⟩
  obtain ⟨h1, h2, h3, h4, h5, h6⟩ := hne
  simp only [h1, h2, h3, h4, h5, h6, if_false]
  exact hscan

theorem skipSpace_formatInt (n : Int) (after : List Char) :
    skipSpace (formatInt n ++ after) = formatInt n ++ after := by
  obtain ⟨a, as, hfmt, ha⟩ := formatInt_head n
  rw [hfmt, List.cons_append]
  apply skipSpace_cons_of_not_space
  rcases ha with h | h
  · subst h; rfl
  · exact (isDigit_cases a h).2.2.2.2.2.2

/-- One member followed by a comma: the parser reads the key and the value
and goes on with the next member. -/
theorem parseMembers_comma (fuel depth : Nat) (key : String) (value after : List Char)
    (v : JSON) (hspace : skipSpace (value ++ ',' :: after) = value ++ ',' :: after)
    (hval : parseValue fuel depth (value ++ ',' :: after) = some (v, ',' :: after)) :
    parseMembers (fuel + 1) depth
        ('"' :: (key.toList.flatMap quoteChar ++ '"' :: ':' :: ' ' :: (value ++ ',' :: after))) =
      match parseMembers fuel depth (skipSpace after) with
      | none => none
      | some (ms, rest) => some ((key, v) :: ms, rest) := by
  rw [parseMembers]
  simp only [if_true, unquote_quote]
  have h1 : skipSpace (':' :: ' ' :: (value ++ ',' :: after)) =
      ':' :: ' ' :: (value ++ ',' :: after) := rfl
  have h2 : skipSpace (' ' :: (value ++ ',' :: after)) = value ++ ',' :: after :=
    (show skipSpace (' ' :: (value ++ ',' :: after)) = skipSpace (value ++ ',' :: after)
      from rfl).trans hspace
  have h3 : skipSpace (',' :: after) = ',' :: after := rfl
  simp only [h1, if_true, h2, hval, h3, string_mk_toList]

/-- The last member of an object: the parser reads the key and the value and
stops after the closing brace. -/
theorem parseMembers_last (fuel depth indent : Nat) (key : String)
    (value rest : List Char) (v : JSON)
    (hspace : skipSpace (value ++ (newline indent ++ '}' :: rest)) =
      value ++ (newline indent ++ '}' :: rest))
    (hval : parseValue fuel depth (value ++ (newline indent ++ '}' :: rest)) =
      some (v, newline indent ++ '}' :: rest)) :
    parseMembers (fuel + 1) depth
        ('"' :: (key.toList.flatMap quoteChar ++
          '"' :: ':' :: ' ' :: (value ++ (newline indent ++ '}' :: rest)))) =
      some ([(key, v)], rest) := by
  rw [parseMembers]
  simp only [if_true, unquote_quote]
  have h1 : skipSpace (':' :: ' ' :: (value ++ (newline indent ++ '}' :: rest))) =
      ':' :: ' ' :: (value ++ (newline indent ++ '}' :: rest)) := rfl
  have h2 : skipSpace (' ' :: (value ++ (newline indent ++ '}' :: rest))) =
      value ++ (newline indent ++ '}' :: rest) :=
    (show skipSpace (' ' :: (value ++ (newline indent ++ '}' :: rest))) =
      skipSpace (value ++ (newline indent ++ '}' :: rest)) from rfl).trans hspace
  have h3 : skipSpace (newline indent ++ '}' :: rest) = '}' :: rest := by
    rw [skipSpace_newline]
    rfl
  have h4 : ¬ ('}' : Char) = ',' := by decide
  simp only [h1, if_true, h2, hval, h3, h4, if_false, string_mk_toList]

theorem newline_append (depth : Nat) (cs : List Char) :
    newline depth ++ cs = '\n' :: (List.replicate (2 * depth) ' ' ++ cs) := rfl

/-- The parser reads back the text of a record. -/
theorem parseValue_renderRecord (fuel depth : Nat) (data : KeystrokeData)
    (after : List Char) (hdepth : depth < maxNestingDepth) :
    parseValue (fuel + 6) depth (renderRecord data ++ after) =
      some (recordValue data, after) := by
  have m4 : parseMembers (fuel + 2) (depth + 1)
      ('"' :: ("end_time".toList.flatMap quoteChar ++ '"' :: ':' :: ' ' ::
        (formatInt data.EndTime ++ (newline 1 ++ '}' :: after)))) =
      some ([("end_time", JSON.number data.EndTime)], after) :=
    parseMembers_last (fuel + 1) (depth + 1) 1 "end_time" _ after _
      (skipSpace_formatInt _ _)
      (by rw [newline_append]; exact parseValue_formatInt fuel _ _ '\n' _ (Or.inr rfl))
  have m3 : parseMembers (fuel + 3) (depth + 1)
      ('"' :: ("start_time".toList.flatMap quoteChar ++ '"' :: ':' :: ' ' ::
        (formatInt data.StartTime ++ ',' :: (newline 2 ++
          '"' :: ("end_time".toList.flatMap quoteChar ++ '"' :: ':' :: ' ' ::
            (formatInt data.EndTime ++ (newline 1 ++ '}' :: after))))))) =
      some ([("start_time", JSON.number data.StartTime),
        ("end_time", JSON.number data.EndTime)], after) := by
    rw [parseMembers_comma (fuel + 2) (depth + 1) "start_time" _ _ _
      (skipSpace_formatInt _ _) (parseValue_formatInt (fuel + 1) _ _ ',' _ (Or.inl rfl)),
      skipSpace_newline, skipSpace_cons_of_not_space '"' _ rfl, m4]
  have m2 : parseMembers (fuel + 4) (depth + 1)
      ('"' :: ("count".toList.flatMap quoteChar ++ '"' :: ':' :: ' ' ::
        (formatInt data.Count ++ ',' :: (newline 2 ++
          '"' :: ("start_time".toList.flatMap quoteChar ++ '"' :: ':' :: ' ' ::
            (formatInt data.StartTime ++ ',' :: (newline 2 ++
              '"' :: ("end_time".toList.flatMap quoteChar ++ '"' :: ':' :: ' ' ::
                (formatInt data.EndTime ++ (newline 1 ++ '}' :: after)))))))))) =
      some ([("count", JSON.number data.Count), ("start_time", JSON.number data.StartTime),
        ("end_time", JSON.number data.EndTime)], after) := by
    rw [parseMembers_comma (fuel + 3) (depth + 1) "count" _ _ _
      (skipSpace_formatInt _ _) (parseValue_formatInt (fuel + 2) _ _ ',' _ (Or.inl rfl)),
      skipSpace_newline, skipSpace_cons_of_not_space '"' _ rfl, m3]
  have m1 : parseMembers (fuel + 5) (depth + 1)
      ('"' :: ("date".toList.flatMap quoteChar ++ '"' :: ':' :: ' ' ::
        (('"' :: (data.Date.toList.flatMap quoteChar ++ ['"'])) ++ ',' :: (newline 2 ++
          '"' :: ("count".toList.flatMap quoteChar ++ '"' :: ':' :: ' ' ::
            (formatInt data.Count ++ ',' :: (newline 2 ++
              '"' :: ("start_time".toList.flatMap quoteChar ++ '"' :: ':' :: ' ' ::
                (formatInt data.StartTime ++ ',' :: (newline 2 ++
                  '"' :: ("end_time".toList.flatMap quoteChar ++ '"' :: ':' :: ' ' ::
                    (formatInt data.EndTime ++
                      (newline 1 ++ '}' :: after))))))))))))) =
      some ([("date", JSON.string data.Date), ("count", JSON.number data.Count),
        ("start_time", JSON.number data.StartTime),
        ("end_time", JSON.number data.EndTime)], after) := by
    rw [parseMembers_comma (fuel + 4) (depth + 1) "date" _ _ _
      (skipSpace_cons_of_not_space '"' _ rfl)
      (by
        rw [List.cons_append, List.append_assoc, List.singleton_append]
        exact parseValue_quote (fuel + 3) _ _ _),
      skipSpace_newline, skipSpace_cons_of_not_space '"' _ rfl, m2]
  have hd : ¬ maxNestingDepth ≤ depth := by omega
  have hbrace : ¬ ('"' : Char) = '}' := by decide
  simp only [renderRecord, renderMember, quote, List.cons_append, List.append_assoc,
    List.singleton_append, List.nil_append]
  rw [parseValue]
  simp only [if_true, hd, if_false, skipSpace_newline,
    skipSpace_cons_of_not_space '"' _ rfl, hbrace]
  simp only [List.cons_append, List.append_assoc, List.singleton_append,
    List.nil_append] at m1
  rw [m1]
  rfl

theorem renderMember_eq (depth : Nat) (key : String) (value : List Char) :
    renderMember depth key value =
      newline depth ++ ('"' :: (key.toList.flatMap quoteChar ++ '"' :: ':' :: ' ' :: value)) := by
  simp [renderMember, quote]

theorem skipSpace_renderMember (depth : Nat) (key : String) (value after : List Char) :
    skipSpace (renderMember depth key value ++ after) =
      '"' :: (key.toList.flatMap quoteChar ++ '"' :: ':' :: ' ' :: (value ++ after)) := by
  simp only [renderMember_eq, List.append_assoc, skipSpace_newline, List.cons_append,
    skipSpace_cons_of_not_space '"' _ rfl]

/-- The parser reads back the members of the map object. -/
theorem parseMembers_renderEntries :
    ∀ (entries : List (String × KeystrokeData)), entries ≠ [] →
      ∀ (fuel : Nat) (rest : List Char),
        parseMembers (fuel + entries.length + 6) 1
            (skipSpace (renderEntries entries ++ (newline 0 ++ '}' :: rest))) =
          some (entryValues entries, rest) := by
  intro entries
  induction entries with
  | nil => intro h; exact absurd rfl h
  | cons e tail ih =>
    intro _ fuel rest
    cases tail with
    | nil =>
      simp only [renderEntries, renderMember_eq, List.append_assoc, skipSpace_newline,
        List.cons_append, skipSpace_cons_of_not_space '"' _ rfl, List.length_singleton]
      rw [parseMembers_last (fuel + 6) 1 0 e.1 _ rest (recordValue e.2)
        (skipSpace_cons_of_not_space '{' _ rfl)
        (parseValue_renderRecord fuel 1 e.2 _ (by decide))]
      rfl
    | cons e' tail' =>
      have hih := ih (List.cons_ne_nil _ _) fuel rest
      simp only [renderEntries, renderMember_eq, List.append_assoc, skipSpace_newline,
        List.cons_append, skipSpace_cons_of_not_space '"' _ rfl, List.length_cons]
      have hfuel : fuel + (tail'.length + 1 + 1) + 6 = (fuel + (tail'.length + 1) + 6) + 1 := by
        omega
      rw [hfuel, parseMembers_comma (fuel + (tail'.length + 1) + 6) 1 e.1 _ _ (recordValue e.2)
        (skipSpace_cons_of_not_space '{' _ rfl)
        (by
          have := parseValue_renderRecord (fuel + (tail'.length + 1)) 1 e.2
            (',' :: (renderEntries (e' :: tail') ++ (newline 0 ++ '}' :: rest))) (by decide)
          exact this)]
      simp only [List.length_cons] at hih
      rw [hih]
      rfl

theorem length_renderEntries (entries : List (String × KeystrokeData)) :
    4 * entries.length ≤ (renderEntries entries).length := by
  induction entries with
  | nil => simp
  | cons e tail ih =>
    cases tail with
    | nil => simp [renderEntries, renderMember_eq, newline]
    | cons e' tail' =>
      simp only [renderEntries, renderMember_eq, newline, List.length_append, List.length_cons,
        List.length_replicate] at ih ⊢
      omega

/-- The scanner and parser read back the text `MarshalIndent` writes: it is
valid JSON, and denotes the object of the entries in the order of their keys. -/
theorem parseJSON_MarshalIndent (m : DailyData) :
    parseJSON (MarshalIndent m).toList =
      some (JSON.object
        (entryValues (sortSlice (fun a b => decide (a.1.toList < b.1.toList)) m))) := by
  unfold MarshalIndent
  cases hs : sortSlice (fun a b => decide (a.1.toList < b.1.toList)) m with
  | nil => rfl
  | cons e tail =>
    have hlen := length_renderEntries (e :: tail)
    simp only [List.length_cons] at hlen
    obtain ⟨fuel, hfuel⟩ : ∃ fuel,
        ('{' :: (renderEntries (e :: tail) ++ (newline 0 ++ ['}']))).length =
          fuel + (e :: tail).length + 6 := by
      refine ⟨('{' :: (renderEntries (e :: tail) ++ (newline 0 ++ ['}']))).length -
        ((e :: tail).length + 6), ?_⟩
      simp only [List.length_cons, List.length_append, newline, List.length_replicate,
        List.length_nil]
      omega
    have hmem := parseMembers_renderEntries (e :: tail) (List.cons_ne_nil _ _) fuel []
    have hskip : ∃ c cs, skipSpace (renderEntries (e :: tail) ++ (newline 0 ++ ['}'])) = c :: cs ∧
        c ≠ '}' := by
      cases tail with
      | nil => exact ⟨'"', _, skipSpace_renderMember 1 e.1 _ _, by decide⟩
      | cons e' tail' =>
        refine ⟨'"', e.1.toList.flatMap quoteChar ++ '"' :: ':' :: ' ' ::
          (renderRecord e.2 ++
            (',' :: renderEntries (e' :: tail') ++ (newline 0 ++ ['}']))), ?_, by decide⟩
        rw [renderEntries, List.append_assoc]
        exact skipSpace_renderMember 1 e.1 _ _
    obtain ⟨c, cs, hcs, hc⟩ := hskip
    rw [hcs] at hmem
    simp only [parseJSON, String.toList, hfuel]
    rw [skipSpace_cons_of_not_space '{' _ rfl, parseValue]
    simp only [if_true, show ¬ maxNestingDepth ≤ 0 from by decide, if_false, hcs, hc]
    rw [hmem]
    rfl

/-! ## The round trip of the data file -/

/-- The decoder rebuilds a record from the JSON value of its text. -/
theorem decodeRecord_recordValue (data : KeystrokeData) :
    decodeRecord (recordValue data) = some data := rfl

theorem PtrMap.set_of_not_mem (m : List (String × Option KeystrokeData)) (k : String)
    (p : Option KeystrokeData) (hk : k ∉ m.map Prod.fst) :
    PtrMap.set m k p = m ++ [(k, p)] := by
  induction m with
  | nil => rfl
  | cons e rest ih =>
    obtain ⟨k', p'⟩ := e
    simp only [List.map_cons, List.mem_cons, not_or] at hk
    have hne : ¬ k' = k := fun h => hk.1 h.symm
    simp [PtrMap.set, hne, ih hk.2]

/-- The decoder assigns the members of an object with distinct keys to the
map in their order. -/
theorem foldl_set_entryValues :
    ∀ (entries : List (String × KeystrokeData)) (m : List (String × Option KeystrokeData)),
      (m.map Prod.fst ++ entries.map Prod.fst).Nodup →
      (entryValues entries).foldl (fun m e => PtrMap.set m e.1 (decodeRecord e.2)) m =
        m ++ entries.map (fun e => (e.1, some e.2)) := by
  intro entries
  induction entries with
  | nil => intro m _; simp [entryValues]
  | cons e tail ih =>
    intro m hnd
    have hk : e.1 ∉ m.map Prod.fst := by
      intro hmem
      have := (List.nodup_append.mp hnd).2.2
      exact this hmem (by simp)
    have hnd' : ((m ++ [(e.1, some e.2)]).map Prod.fst ++ tail.map Prod.fst).Nodup := by
      simpa [List.append_assoc] using hnd
    have := ih (m ++ [(e.1, some e.2)]) hnd'
    simp only [entryValues, List.map_cons, List.foldl_cons, decodeRecord_recordValue,
      PtrMap.set_of_not_mem m e.1 (some e.2) hk] at this ⊢
    rw [this]
    simp

theorem PtrMap.entries_map_some (entries : List (String × KeystrokeData)) :
    PtrMap.entries (entries.map (fun e => (e.1, some e.2))) = some entries := by
  induction entries with
  | nil => rfl
  | cons e tail ih => simp [PtrMap.entries, ih]

/-- What `NewKeyTracker` loads from the file `saveData` wrote: the entries of
the saved map, in the order of their keys. -/
theorem NewKeyTracker_saveData (kt : KeyTracker)
    (hnd : (kt.dailyData.map Prod.fst).Nodup) :
    NewKeyTracker (some (saveData kt)) =
      some { dailyData := sortSlice (fun a b => decide (a.1.toList < b.1.toList)) kt.dailyData
             lastKeytime := none } := by
  have hperm := sortSlice_perm (fun a b : String × KeystrokeData =>
    decide (a.1.toList < b.1.toList)) kt.dailyData
  have hnd' : ((sortSlice (fun a b : String × KeystrokeData =>
      decide (a.1.toList < b.1.toList)) kt.dailyData).map Prod.fst).Nodup :=
    (hperm.map Prod.fst).nodup_iff.mpr hnd
  have hfold := foldl_set_entryValues
    (sortSlice (fun a b : String × KeystrokeData => decide (a.1.toList < b.1.toList))
      kt.dailyData) []
    (by rw [List.map_nil, List.nil_append]; exact hnd')
  simp only [NewKeyTracker, loadData, saveData, Unmarshal, parseJSON_MarshalIndent, decodeMap,
    Option.getD_some, hfold, List.nil_append, PtrMap.records, PtrMap.entries_map_some]

/-- In a list with distinct keys, every entry is the one a lookup finds. -/
theorem DailyData.get_of_mem {m : DailyData} (hnd : (m.map Prod.fst).Nodup)
    {k : String} {v : KeystrokeData} (h : (k, v) ∈ m) : m.get k = some v := by
  induction m with
  | nil => simp at h
  | cons e rest ih =>
    obtain ⟨k₁, v₁⟩ := e
    simp only [List.map_cons, List.nodup_cons] at hnd
    rcases List.mem_cons.mp h with h | h
    · cases h
      simp [DailyData.get]
    · have hne : ¬ k₁ = k := by
        intro hk
        subst hk
        exact hnd.1 (List.mem_map.mpr ⟨(k₁, v), h, rfl⟩)
      simp only [DailyData.get, hne, if_false]
      exact ih hnd.2 h

/-- Two entry lists of the same map, in different orders, answer every lookup
alike. -/
theorem DailyData.get_perm {m₁ m₂ : DailyData} (hp : m₁.Perm m₂)
    (hnd : (m₂.map Prod.fst).Nodup) (k : String) : m₁.get k = m₂.get k := by
  have hnd₁ : (m₁.map Prod.fst).Nodup := (hp.map Prod.fst).nodup_iff.mpr hnd
  cases h₂ : m₂.get k with
  | some v => exact DailyData.get_of_mem hnd₁ (hp.mem_iff.mpr (DailyData.mem_of_get h₂))
  | none =>
    cases h₁ : m₁.get k with
    | none => rfl
    | some v =>
      have := DailyData.get_of_mem hnd (hp.mem_iff.mp (DailyData.mem_of_get h₁))
      rw [h₂] at this
      exact absurd this (by simp)

theorem getDailyStats_perm_of_perm {kt₁ kt₂ : KeyTracker}
    (hp : kt₁.dailyData.Perm kt₂.dailyData) :
    (getDailyStats kt₁).Perm (getDailyStats kt₂) :=
  ((getDailyStats_perm kt₁).trans (hp.map _)).trans (getDailyStats_perm kt₂).symm

theorem map_date_getDailyStats_perm (kt : KeyTracker) :
    ((getDailyStats kt).map (fun s => s.Date)).Perm (kt.dailyData.map (fun e => e.2.Date)) := by
  have := (getDailyStats_perm kt).map (fun s => s.Date)
  simpa [List.map_map, Function.comp, dailyStat] using this

/-- Two trackers with the same entries and pairwise distinct dates have the
same `getDailyStats` result, whatever the order of their entries. -/
theorem getDailyStats_eq_of_perm {kt₁ kt₂ : KeyTracker}
    (hp : kt₁.dailyData.Perm kt₂.dailyData)
    (hdates : (kt₂.dailyData.map (fun e => e.2.Date)).Nodup) :
    getDailyStats kt₁ = getDailyStats kt₂ := by
  have hstrict : ∀ kt : KeyTracker, (kt.dailyData.map (fun e => e.2.Date)).Nodup →
      List.Sorted (fun a b : DailyStats => a.Date < b.Date) (getDailyStats kt) := by
    intro kt hnd
    have hnd' : ((getDailyStats kt).map (fun s => s.Date)).Nodup :=
      (map_date_getDailyStats_perm kt).nodup_iff.mpr hnd
    have hne : (getDailyStats kt).Pairwise (fun a b => a.Date ≠ b.Date) := by
      rw [List.Nodup, List.pairwise_map] at hnd'
      exact hnd'
    exact ((getDailyStats_pairwise kt).and hne).imp (fun h => lt_of_le_of_ne h.1 h.2)
  have hdates₁ : (kt₁.dailyData.map (fun e => e.2.Date)).Nodup :=
    ((hp.map (fun e => e.2.Date)).nodup_iff).mpr hdates
  have hanti : IsAntisymm DailyStats (fun a b => a.Date < b.Date) :=
    ⟨fun a b hab hba => absurd hab (lt_asymm hba)⟩
  exact List.eq_of_perm_of_sorted (getDailyStats_perm_of_perm hp) (hstrict kt₁ hdates₁)
    (hstrict kt₂ hdates)

/-- C11: for every store (a map: an entry list with pairwise distinct keys),
`NewKeyTracker` on the file that `saveData` wrote, with no event in between,
returns a tracker whose store has the same entries, so that every day has the
same record (date, count, start time, end time) and no day is added or lost;
its `getDailyStats` result holds the same entries, and is the same sequence
when the dates of the records are pairwise distinct. -/
theorem saveData_NewKeyTracker_round_trip (kt : KeyTracker)
    (hnd : (kt.dailyData.map Prod.fst).Nodup) :
    ∃ kt', NewKeyTracker (some (saveData kt)) = some kt' ∧
      loadData (some []) (some (saveData kt)) =
        some (kt'.dailyData.map (fun e => (e.1, some e.2))) ∧
      kt'.dailyData.Perm kt.dailyData ∧
      (∀ k, kt'.dailyData.get k = kt.dailyData.get k) ∧
      (getDailyStats kt').Perm (getDailyStats kt) ∧
      ((kt.dailyData.map (fun e => e.2.Date)).Nodup →
        getDailyStats kt' = getDailyStats kt) := by
  have hperm := sortSlice_perm (fun a b : String × KeystrokeData =>
    decide (a.1.toList < b.1.toList)) kt.dailyData
  refine ⟨_, NewKeyTracker_saveData kt hnd, ?_, hperm, DailyData.get_perm hperm hnd,
    getDailyStats_perm_of_perm hperm, fun hdates => getDailyStats_eq_of_perm hperm hdates⟩
  have hnd' : ((sortSlice (fun a b : String × KeystrokeData =>
      decide (a.1.toList < b.1.toList)) kt.dailyData).map Prod.fst).Nodup :=
    (hperm.map Prod.fst).nodup_iff.mpr hnd
  have hfold := foldl_set_entryValues
    (sortSlice (fun a b : String × KeystrokeData => decide (a.1.toList < b.1.toList))
      kt.dailyData) []
    (by rw [List.map_nil, List.nil_append]; exact hnd')
  simp only [loadData, saveData, Unmarshal, parseJSON_MarshalIndent, decodeMap,
    Option.getD_some, hfold, List.nil_append]

/-- C11 at a concrete input: a store of two days, entered latest first. -/
theorem saveData_NewKeyTracker_round_trip_witness :
    (([("2024-01-02",
          { Date := "2024-01-02", Count := 1, StartTime := 1704153600,
            EndTime := 1704153600 }),
        ("2024-01-01",
          { Date := "2024-01-01", Count := 50, StartTime := 1704067200,
            EndTime := 1704067325 })] : DailyData).map Prod.fst).Nodup ∧
    ∃ kt', NewKeyTracker (some (saveData
        { dailyData := [("2024-01-02",
            { Date := "2024-01-02", Count := 1, StartTime := 1704153600,
              EndTime := 1704153600 }),
           ("2024-01-01",
            { Date := "2024-01-01", Count := 50, StartTime := 1704067200,
              EndTime := 1704067325 })],
          lastKeytime := some 1704153600 })) = some kt' ∧
      kt'.dailyData.get "2024-01-01" =
        some { Date := "2024-01-01", Count := 50, StartTime := 1704067200,
               EndTime := 1704067325 } ∧
      kt'.dailyData.get "2024-01-02" =
        some { Date := "2024-01-02", Count := 1, StartTime := 1704153600,
               EndTime := 1704153600 } ∧
      kt'.dailyData.length = 2 := by
  refine ⟨by decide, ?_⟩
  obtain ⟨kt', hnew, _, hperm, hget, _, _⟩ :=
    saveData_NewKeyTracker_round_trip
      { dailyData := [("2024-01-02",
          { Date := "2024-01-02", Count := 1, StartTime := 1704153600,
            EndTime := 1704153600 }),
         ("2024-01-01",
          { Date := "2024-01-01", Count := 50, StartTime := 1704067200,
            EndTime := 1704067325 })],
        lastKeytime := some 1704153600 } (by decide)
  exact ⟨kt', hnew, (hget "2024-01-01").trans (by decide),
    (hget "2024-01-02").trans (by decide), hperm.length_eq⟩

/-- The text `saveData` writes for a store of one day. -/
theorem saveData_text_example :
    saveData
      { dailyData := [("2024-01-01",
          { Date := "2024-01-01", Count := 5, StartTime := 1704067200,
            EndTime := 1704067260 })],
        lastKeytime := none } =
    "\x7b\n  \"2024-01-01\": \x7b\n    \"date\": \"2024-01-01\",\n    \"count\": 5,\n    \"start_time\": 1704067200,\n    \"end_time\": 1704067260\n  \x7d\n\x7d" := by
  decide

/-! ## Missing and malformed data files -/

/-- C12: when the data file is missing (`os.ReadFile` fails) or its content
is not syntactically valid JSON, `loadData` leaves the map as it is, and
`NewKeyTracker` returns a tracker with an empty store, for which
`getDailyStats` returns no entry. -/
theorem NewKeyTracker_missing_or_invalid (file : Option String)
    (h : file = none ∨ ∃ data, file = some data ∧ Valid data = false) :
    (∀ dailyData : PtrMap, loadData dailyData file = dailyData) ∧
    ∃ kt, NewKeyTracker file = some kt ∧ kt.dailyData = [] ∧ getDailyStats kt = [] := by
  have hload : ∀ dailyData : PtrMap, loadData dailyData file = dailyData := by
    intro dailyData
    rcases h with h | ⟨data, h, hinv⟩
    · subst h
      rfl
    · subst h
      have hnone : parseJSON data.toList = none := by
        simpa [Valid] using hinv
      simp only [loadData, Unmarshal, hnone]
  refine ⟨hload, ⟨{ dailyData := [], lastKeytime := none }, ?_, rfl, rfl⟩⟩
  simp only [NewKeyTracker, hload]
  rfl

/-- C12 at concrete inputs: a file cut off in the middle of a record, and a
missing file. -/
theorem NewKeyTracker_missing_or_invalid_witness :
    Valid "\x7b\n  \"2024-01-01\": \x7b\n    \"date\": \"2024-01-01\",\n    \"count\": 5," = false ∧
    (∃ kt, NewKeyTracker
        (some "\x7b\n  \"2024-01-01\": \x7b\n    \"date\": \"2024-01-01\",\n    \"count\": 5,")
        = some kt ∧ kt.dailyData = [] ∧ getDailyStats kt = []) ∧
    (∃ kt, NewKeyTracker none = some kt ∧ kt.dailyData = [] ∧ getDailyStats kt = []) :=
  ⟨by decide,
   (NewKeyTracker_missing_or_invalid
     (some "\x7b\n  \"2024-01-01\": \x7b\n    \"date\": \"2024-01-01\",\n    \"count\": 5,")
     (Or.inr ⟨_, rfl, by decide⟩)).2,
   (NewKeyTracker_missing_or_invalid none (Or.inl rfl)).2⟩


end ChronoType
